import Mathlib

/-!
Verification of the fantasy snake-draft simulator core logic.

The development shallowly embeds the program's core functions:
* the line parser `parsePlayerText` (text → players or error),
* the snake board generator `generateSnakeDraft`,
* the board renderer's pick-number computation `overallPick`,
* the view-state handlers (`handleTogglePlayerPicked`,
  `handleTogglePlayerHighlight`, `handleMarkUntilPicked`) and the
  identifier-based picked-set reset (`applyRawTextChange`).

JavaScript string primitives used by the program (`trim`, `split('\n')`,
`split(/\s+/)`, `parseInt(s, 10)`, `endsWith`, `slice(0, -1)`, template
stringification of numbers) are modelled explicitly on character lists.
-/

set_option maxHeartbeats 1000000

/-- The whitespace characters recognised by the model (the ASCII whitespace
relevant to the program's inputs). -/
def isWs (c : Char) : Bool :=
  c = ' ' || c = '\t' || c = '\n' || c = '\r'

/-- Remove leading and trailing whitespace from a character list
(model of JavaScript `String.prototype.trim`). -/
def trimChars (cs : List Char) : List Char :=
  ((cs.dropWhile isWs).reverse.dropWhile isWs).reverse

/-- Model of JavaScript `s.trim()`. -/
def jsTrim (s : String) : String :=
  ⟨trimChars s.data⟩

/-- Split a character list at every occurrence of `sep`
(model of JavaScript `s.split(sep)` for a single-character separator). -/
def splitOnChar (sep : Char) : List Char → List (List Char)
  | [] => [[]]
  | c :: cs =>
    if c = sep then [] :: splitOnChar sep cs
    else
      match splitOnChar sep cs with
      | [] => [[c]]
      | l :: ls => (c :: l) :: ls

/-- Model of JavaScript `s.split('\n')`. -/
def jsSplitNl (s : String) : List String :=
  (splitOnChar '\n' s.data).map String.mk

/-- Model of JavaScript `lines.join('\n')`. -/
def joinNl (ls : List String) : String :=
  ⟨List.intercalate ['\n'] (ls.map String.data)⟩

/-- Model of JavaScript `tokens.join(' ')`. -/
def joinSpace (ls : List String) : String :=
  ⟨List.intercalate [' '] (ls.map String.data)⟩

/-- Worker for `splitWsRuns`: splits at maximal whitespace runs.  `sepMode`
records whether the previously seen character was whitespace (so further
whitespace extends the same separator), `acc` holds the reversed current
field. -/
def wsSplitAux : Bool → List Char → List Char → List (List Char)
  | _, [], acc => [acc.reverse]
  | sepMode, c :: cs, acc =>
    if isWs c then
      if sepMode then wsSplitAux true cs acc
      else acc.reverse :: wsSplitAux true cs []
    else wsSplitAux false cs (c :: acc)

/-- Model of JavaScript `s.split(/\s+/)`: fields between maximal whitespace
runs (an empty leading/trailing field when the string starts/ends with
whitespace, and `[""]` on the empty string). -/
def splitWsRuns (s : String) : List String :=
  (wsSplitAux false s.data []).map String.mk

/-- Numeric value of a list of decimal digit characters. -/
def digitsVal (cs : List Char) : Nat :=
  cs.foldl (fun a c => a * 10 + (c.toNat - 48)) 0

/-- Model of JavaScript `parseInt(s, 10)`: skip leading whitespace, read an
optional sign, then the longest prefix of decimal digits; `none` when no
digit is found. -/
def jsParseInt (s : String) : Option Int :=
  let cs := s.data.dropWhile isWs
  if cs.head? = some '-' then
    let ds := (cs.drop 1).takeWhile Char.isDigit
    if ds = [] then none else some (-(digitsVal ds : Int))
  else if cs.head? = some '+' then
    let ds := (cs.drop 1).takeWhile Char.isDigit
    if ds = [] then none else some ((digitsVal ds : Int))
  else
    let ds := cs.takeWhile Char.isDigit
    if ds = [] then none else some ((digitsVal ds : Int))

/-- The decimal digit character for `n < 10`. -/
def digitChar (n : Nat) : Char :=
  Char.ofNat (48 + n)

/-- Worker for `natDigits`, structurally recursive on a fuel bound. -/
def natDigitsAux : Nat → Nat → List Char
  | 0, _ => []
  | fuel + 1, n =>
    if n < 10 then [digitChar n]
    else natDigitsAux fuel (n / 10) ++ [digitChar (n % 10)]

/-- Decimal digit characters of a natural number. -/
def natDigits (n : Nat) : List Char :=
  natDigitsAux (n + 1) n

/-- Model of JavaScript number-to-string conversion for integers
(as used by template literals such as `Team N` and `rank|name`). -/
def intDecString (i : Int) : String :=
  if i < 0 then ⟨'-' :: natDigits (-i).toNat⟩ else ⟨natDigits i.toNat⟩

/-- `Player` record, from `types.ts`. -/
structure Player where
  rank : Int
  name : String
  position : String
  isHighlighted : Bool
deriving DecidableEq, Repr

/-- Result of `parsePlayerText`: the `{ players, error }` object. -/
structure ParseResult where
  players : List Player
  error : Option String
deriving DecidableEq, Repr

/-- The malformed-line error message from `parsePlayerText`. -/
def malformedMsg (line : String) : String :=
  "Malformed line detected. Each line must have rank, name, and position. Problem line: \"" ++ line ++ "\""

/-- The could-not-parse error message from `parsePlayerText`. -/
def badParseMsg (line : String) : String :=
  "Could not parse line. Check format. Problem line: \"" ++ line ++ "\""

/-- Outcome of the parser loop body on a single line. -/
inductive LineResult where
  | blank : LineResult
  | bad : String → LineResult
  | ok : Player → LineResult
deriving DecidableEq, Repr

/-- Model of `s.endsWith "*"` on a string. -/
def endsStar (s : String) : Bool :=
  s.data.getLast? = some '*'

/-- One iteration of the loop body of `parsePlayerText`
(`Controls.tsx` lines 116-140): skip blank lines, detect and strip a
trailing `*` highlight marker, split into whitespace-separated tokens,
require at least three tokens, parse the first as the rank, take the last
as the position and the middle ones joined by single spaces as the name. -/
def parseOneLine (line : String) : LineResult :=
  if jsTrim line = "" then .blank
  else
    let t := jsTrim line
    let processed := if endsStar t then jsTrim ⟨t.data.dropLast⟩ else t
    let parts := splitWsRuns processed
    if parts.length < 3 then .bad (malformedMsg line)
    else
      let rankOpt := jsParseInt (parts.headD "")
      let position := parts.getLastD ""
      let name := joinSpace ((parts.drop 1).dropLast)
      match rankOpt with
      | none => .bad (badParseMsg line)
      | some rank =>
        if name = "" ∨ position = "" then .bad (badParseMsg line)
        else .ok ⟨rank, name, position, endsStar t⟩

/-- The parser loop of `parsePlayerText` over the list of lines,
accumulating successfully parsed players; any failure discards the
accumulator and returns the error. -/
def parseLines : List String → List Player → ParseResult
  | [], acc => ⟨acc, none⟩
  | line :: rest, acc =>
    match parseOneLine line with
    | .blank => parseLines rest acc
    | .bad m => ⟨[], some m⟩
    | .ok p => parseLines rest (acc ++ [p])

/-- `parsePlayerText` from `Controls.tsx` (lines 112-143): trim the text,
split on newlines and run the parser loop. -/
def parsePlayerText (text : String) : ParseResult :=
  parseLines (jsSplitNl (jsTrim text)) []

example : parsePlayerText "1 Tom Brady QB\n2 AJ Green WR *" =
    ⟨[⟨1, "Tom Brady", "QB", false⟩, ⟨2, "AJ Green", "WR", true⟩], none⟩ := by decide

/-! ## Snake board generator (`Controls.tsx` lines 145-180) -/

/-- The team index receiving pick `i` (0-based list index) in a `T`-team
snake draft: `round = i / T`, `pickInRound = i % T`, forward on even
rounds and reversed on odd rounds. -/
def teamIdxOf (T i : Nat) : Nat :=
  if (i / T) % 2 = 0 then i % T else T - 1 - i % T

/-- `rounds[r][t] = player` with the generator's bounds behaviour: a write
outside the existing rows/columns is a no-op. -/
def setSlot (rs : List (List (Option Player))) (r t : Nat) (p : Player) :
    List (List (Option Player)) :=
  rs.set r ((rs.getD r []).set t (some p))

/-- The board: an ordered mapping from team label to that team's
round-by-round slots (insertion order preserved, as for a JS object). -/
abbrev DraftBoardData := List (String × List (Option Player))

/-- The team label `Team N`. -/
def teamLabel (t : Nat) : String :=
  "Team " ++ ⟨natDigits (t + 1)⟩

/-- `generateSnakeDraft` from `Controls.tsx` (lines 145-180): empty list or
non-positive team count gives the empty mapping; otherwise
`ceil(L/T)` rounds are allocated, each player is placed by the snake rule,
and the board is emitted per team `Team 1 … Team T` in order. -/
def generateSnakeDraft (players : List Player) (numTeams : Int) : DraftBoardData :=
  if players.length = 0 ∨ numTeams ≤ 0 then []
  else
    let T := numTeams.toNat
    let numRounds := (players.length + T - 1) / T
    let init : List (List (Option Player)) :=
      List.replicate numRounds (List.replicate T none)
    let rounds := players.enum.foldl
      (fun rs ip => setSlot rs (ip.1 / T) (teamIdxOf T ip.1) ip.2) init
    (List.range T).map (fun t => (teamLabel t,
      (List.range numRounds).map (fun r => (rounds.getD r []).getD t none)))

/-- Slot lookup on the produced board: team index `t` (0-based, in key
order), round `r`. -/
def slotAt (board : DraftBoardData) (t r : Nat) : Option Player :=
  ((board.getD t ("", [])).2).getD r none

/-! ## Board renderer pick numbers (`DraftBoard.tsx` lines 145-150) -/

/-- `pickInRound` as computed by the board renderer for a grid cell. -/
def pickInRoundOf (numTeams roundIndex teamIndex : Nat) : Nat :=
  if roundIndex % 2 = 0 then teamIndex else numTeams - 1 - teamIndex

/-- `overallPick` as computed independently by the board renderer:
`roundIndex * numTeams + pickInRound + 1`. -/
def overallPick (numTeams roundIndex teamIndex : Nat) : Nat :=
  roundIndex * numTeams + pickInRoundOf numTeams roundIndex teamIndex + 1

/-! ## View-state controller (`Controls.tsx` lines 183-329) -/

/-- Model of JavaScript `parts.join(',')`. -/
def joinComma (ls : List String) : String :=
  ⟨List.intercalate [','] (ls.map String.data)⟩

/-- `playerListIdentifier` (`Controls.tsx` lines 237-239): the ordered
`rank|name` pairs joined by commas, ignoring highlights. -/
def playerListIdentifier (players : List Player) : String :=
  joinComma (players.map (fun p => intDecString p.rank ++ "|" ++ p.name))

/-- The identifier computed from raw text (parse, then identify). -/
def identifierOfText (text : String) : String :=
  playerListIdentifier (parsePlayerText text).players

/-- The mutable state owned by `App`. -/
structure AppState where
  rawText : String
  numTeams : Int
  pickedPlayers : Finset Int
deriving DecidableEq

/-- The players derived (memoised) from the current raw text. -/
def playersOf (s : AppState) : List Player :=
  (parsePlayerText s.rawText).players

/-- The parse error derived from the current raw text. -/
def errorOf (s : AppState) : Option String :=
  (parsePlayerText s.rawText).error

/-- The derived draft board (`draftData` memo, `Controls.tsx` lines 252-257):
the generated board when there are players, the empty mapping otherwise. -/
def draftDataOf (s : AppState) : DraftBoardData :=
  if 0 < (playersOf s).length then generateSnakeDraft (playersOf s) s.numTeams else []

/-- A raw-text change together with the identifier-keyed reset effect
(`Controls.tsx` lines 246-249): the picked set is cleared exactly when the
list identifier changes. -/
def applyRawTextChange (s : AppState) (text : String) : AppState :=
  { rawText := text
    numTeams := s.numTeams
    pickedPlayers :=
      if identifierOfText text = identifierOfText s.rawText then s.pickedPlayers
      else ∅ }

/-- `handleTogglePlayerPicked` (`Controls.tsx` lines 284-294): flip
membership of the rank in the picked set. -/
def handleTogglePlayerPicked (prevPicked : Finset Int) (playerRank : Int) : Finset Int :=
  if playerRank ∈ prevPicked then prevPicked.erase playerRank
  else insert playerRank prevPicked

/-- The toggle-picked handler as a state transition. -/
def applyTogglePicked (s : AppState) (playerRank : Int) : AppState :=
  { s with pickedPlayers := handleTogglePlayerPicked s.pickedPlayers playerRank }

/-- `handleMarkUntilPicked` (`Controls.tsx` lines 317-325): build, from the
current players, the set of ranks at most the given rank. -/
def handleMarkUntilPicked (players : List Player) (playerRank : Int) : Finset Int :=
  players.foldl (fun s p => if p.rank ≤ playerRank then insert p.rank s else s) ∅

/-- The mark-until-picked handler as a state transition: the picked set is
replaced wholesale. -/
def applyMarkUntil (s : AppState) (playerRank : Int) : AppState :=
  { s with pickedPlayers := handleMarkUntilPicked (playersOf s) playerRank }

/-- The matched-line test of `handleTogglePlayerHighlight`
(`Controls.tsx` lines 298-303): trim the line, drop a trailing
`\s*\*\s*` marker, and compare the leading digit run (`^\d+`) with the
rank. -/
def stripMarker (t : String) : String :=
  if t.data.getLast? = some '*' then ⟨(t.data.dropLast.reverse.dropWhile isWs).reverse⟩
  else t

/-- The value of the `^\d+` match (as parsed by `parseInt`), when present. -/
def leadingRank (s : String) : Option Int :=
  let ds := s.data.takeWhile Char.isDigit
  if ds = [] then none else some (digitsVal ds : Int)

/-- Whether a raw line matches `playerRank` in `handleTogglePlayerHighlight`. -/
def lineMatchesRank (playerRank : Int) (line : String) : Bool :=
  leadingRank (stripMarker (jsTrim line)) = some playerRank

/-- The edit applied to the matched line (`Controls.tsx` lines 306-311):
remove a trailing `*` (re-trimming) when present, else append ` *`. -/
def toggleLine (line : String) : String :=
  let t := jsTrim line
  if t.data.getLast? = some '*' then jsTrim ⟨t.data.dropLast⟩
  else t ++ " *"

/-- `handleTogglePlayerHighlight` (`Controls.tsx` lines 296-315) as a pure
text edit: toggle the marker on the first line whose leading integer
matches, leaving the text unchanged when no line matches. -/
def handleTogglePlayerHighlight (rawText : String) (playerRank : Int) : String :=
  let lines := jsSplitNl rawText
  match lines.findIdx? (fun l => lineMatchesRank playerRank l) with
  | none => rawText
  | some i => joinNl (lines.set i (toggleLine (lines.getD i "")))

example : handleTogglePlayerHighlight "1 Tom Brady QB\n2 AJ Green WR" 2 =
    "1 Tom Brady QB\n2 AJ Green WR *" := by decide

example : handleTogglePlayerHighlight "1 Tom Brady QB\n2 AJ Green WR *" 2 =
    "1 Tom Brady QB\n2 AJ Green WR" := by decide

example : handleTogglePlayerHighlight "1 Tom **" 1 = "1 Tom *" := by decide

example : (parsePlayerText "1 Tom **").players = [⟨1, "Tom", "*", true⟩] := by decide

example : (parsePlayerText "1 Tom *").error.isSome = true := by decide

example : generateSnakeDraft [⟨1, "A", "QB", false⟩, ⟨2, "B", "RB", false⟩,
    ⟨3, "C", "WR", false⟩] 2 =
    [("Team 1", [some ⟨1, "A", "QB", false⟩, none]),
     ("Team 2", [some ⟨2, "B", "RB", false⟩, some ⟨3, "C", "WR", false⟩])] := by decide

/-! ## Claim-side definitions -/

/-- The token list of a line after trimming and stripping a trailing `*`
marker, exactly as the parser computes it. -/
def strippedParts (line : String) : List String :=
  let t := jsTrim line
  let processed := if endsStar t then jsTrim ⟨t.data.dropLast⟩ else t
  splitWsRuns processed

/-- A line is malformed in the claims' sense: non-blank, and either fewer
than 3 whitespace-separated tokens remain after stripping a trailing `*`,
or the rank fails to parse. -/
def lineMalformed (line : String) : Bool :=
  jsTrim line ≠ "" &&
    ((strippedParts line).length < 3 || (jsParseInt ((strippedParts line).headD "")).isNone)

/-- `inner` occurs verbatim inside `outer`. -/
def containsSub (outer inner : String) : Prop :=
  ∃ pre post : String, outer = pre ++ inner ++ post

/-- A string spelling a valid integer: an optional sign followed by one or
more digits and nothing else. -/
def isValidIntegerString (s : String) : Bool :=
  let cs := match s.data with
    | '-' :: rest => rest
    | '+' :: rest => rest
    | cs => cs
  cs ≠ [] && cs.all Char.isDigit

/-- A single whitespace-free non-empty token. -/
def isToken (s : String) : Bool :=
  s.data ≠ [] && s.data.all (fun c => !isWs c)

/-- A well-formed name as the round-trip claim describes it: non-empty
whitespace-free tokens joined by single spaces. -/
def nameWellFormed (s : String) : Bool :=
  (splitWsRuns s).all isToken && joinSpace (splitWsRuns s) = s

/-- Well-formedness of a player record as described by the round-trip
claim: positive integer rank, well-formed name not ending in `*`, and a
single-token position. -/
def playerWellFormed (p : Player) : Bool :=
  (0 < p.rank) && nameWellFormed p.name && (p.name.data.getLast? ≠ some '*') &&
    isToken p.position

/-- Strengthened well-formedness: additionally the position must not end
in `*` (otherwise an unhighlighted rendered line ends in `*` and the
parser reads it as a highlight marker). -/
def playerWellFormedStrong (p : Player) : Bool :=
  playerWellFormed p && (p.position.data.getLast? ≠ some '*')

/-- Render one player as the line `<rank> <name> <position>` with ` *`
appended when highlighted (the round-trip claim's line format). -/
def renderPlayer (p : Player) : String :=
  intDecString p.rank ++ " " ++ p.name ++ " " ++ p.position ++
    (if p.isHighlighted then " *" else "")

/-- Render a player list, one line per player. -/
def renderPlayers (ps : List Player) : String :=
  joinNl (ps.map renderPlayer)

/-- The safety condition under which a highlight toggle is
identity-preserving: if the matched line ends in `*`, then stripping that
marker must not leave yet another trailing `*`. -/
def safeToggle (text : String) (playerRank : Int) : Prop :=
  ∀ i, (jsSplitNl text).findIdx? (fun l => lineMatchesRank playerRank l) = some i →
    (let t := jsTrim ((jsSplitNl text).getD i "")
     t.data.getLast? = some '*' → (jsTrim ⟨t.data.dropLast⟩).data.getLast? ≠ some '*')

example : renderPlayer ⟨1, "Tom Brady", "QB", true⟩ = "1 Tom Brady QB *" := by decide

example : (parsePlayerText (renderPlayers [⟨1, "Tom Brady", "QB", true⟩,
    ⟨12, "AJ Green", "WR", false⟩])) =
    ⟨[⟨1, "Tom Brady", "QB", true⟩, ⟨12, "AJ Green", "WR", false⟩], none⟩ := by decide

example : playerWellFormed ⟨1, "Tom", "QB*", false⟩ = true := by decide

example : parsePlayerText (renderPlayers [⟨1, "Tom", "QB*", false⟩]) =
    ⟨[⟨1, "Tom", "QB", true⟩], none⟩ := by decide

example : lineMalformed "1 Tom" = true := by decide

example : lineMalformed "x Tom QB" = true := by decide

example : lineMalformed "1x Tom QB" = false := by decide

/-! ## Utility lemmas: the string model -/

theorem strData_mk (cs : List Char) : (String.mk cs).data = cs := rfl

theorem strMk_data (s : String) : String.mk s.data = s := rfl

theorem str_eq_iff {s t : String} : s = t ↔ s.data = t.data :=
  ⟨fun h => h ▸ rfl, String.ext⟩

theorem str_empty_iff {s : String} : s = "" ↔ s.data = [] := str_eq_iff

/-- The right-trim part of `trimChars`. -/
def rightTrimChars (cs : List Char) : List Char :=
  (cs.reverse.dropWhile isWs).reverse

theorem trimChars_eq_right (cs : List Char) :
    trimChars cs = rightTrimChars (cs.dropWhile isWs) := rfl

theorem dropWhile_eq_self_of_head {p : Char → Bool} {l : List Char}
    (h : ∀ x, l.head? = some x → p x = false) : l.dropWhile p = l := by
  cases l with
  | nil => rfl
  | cons c cs =>
    have hc : p c = false := h c rfl
    simp [List.dropWhile_cons, hc]

theorem rightTrim_concat_ws {c : Char} (hc : isWs c = true) (cs : List Char) :
    rightTrimChars (cs ++ [c]) = rightTrimChars cs := by
  simp [rightTrimChars, List.reverse_append, List.dropWhile_cons, hc]

theorem rightTrim_concat_nonws {c : Char} (hc : isWs c = false) (cs : List Char) :
    rightTrimChars (cs ++ [c]) = cs ++ [c] := by
  simp [rightTrimChars, List.reverse_append, List.dropWhile_cons, hc]

theorem rightTrim_eq_self_of_last {cs : List Char}
    (h : ∀ x, cs.getLast? = some x → isWs x = false) : rightTrimChars cs = cs := by
  have : cs.reverse.dropWhile isWs = cs.reverse := by
    apply dropWhile_eq_self_of_head
    intro x hx
    exact h x (by rwa [List.getLast?_eq_head?_reverse])
  simp [rightTrimChars, this]

theorem rightTrim_prefix (cs : List Char) :
    ∃ suf, cs = rightTrimChars cs ++ suf ∧ ∀ x ∈ suf, isWs x = true := by
  refine ⟨(cs.reverse.takeWhile isWs).reverse, ?_, ?_⟩
  · calc cs = cs.reverse.reverse := (List.reverse_reverse cs).symm
      _ = (List.takeWhile isWs cs.reverse ++ List.dropWhile isWs cs.reverse).reverse := by
          rw [List.takeWhile_append_dropWhile]
      _ = (List.dropWhile isWs cs.reverse).reverse ++ (List.takeWhile isWs cs.reverse).reverse := by
          rw [List.reverse_append]
      _ = rightTrimChars cs ++ (cs.reverse.takeWhile isWs).reverse := rfl
  · intro x hx
    rw [List.mem_reverse] at hx
    exact List.mem_takeWhile_imp hx

theorem head?_rightTrim {cs : List Char} {x : Char}
    (h : (rightTrimChars cs).head? = some x) : cs.head? = some x := by
  obtain ⟨suf, hsuf, -⟩ := rightTrim_prefix cs
  rw [hsuf, List.head?_append_of_ne_nil]
  · exact h
  · intro hnil
    rw [hnil] at h
    simp at h

theorem getLast?_rightTrim_not_ws {cs : List Char} {x : Char}
    (h : (rightTrimChars cs).getLast? = some x) : isWs x = false := by
  rw [rightTrimChars, List.getLast?_reverse] at h
  have := List.head?_dropWhile_not isWs cs.reverse
  rw [h] at this
  exact this

theorem head?_dropWhile_not_ws {cs : List Char} {x : Char}
    (h : (cs.dropWhile isWs).head? = some x) : isWs x = false := by
  have := List.head?_dropWhile_not isWs cs
  rw [h] at this
  exact this

theorem trimChars_head_not_ws {cs : List Char} {x : Char}
    (h : (trimChars cs).head? = some x) : isWs x = false := by
  rw [trimChars_eq_right] at h
  exact head?_dropWhile_not_ws (head?_rightTrim h)

theorem trimChars_last_not_ws {cs : List Char} {x : Char}
    (h : (trimChars cs).getLast? = some x) : isWs x = false := by
  rw [trimChars_eq_right] at h
  exact getLast?_rightTrim_not_ws h

theorem trimChars_eq_self {cs : List Char}
    (hh : ∀ x, cs.head? = some x → isWs x = false)
    (hl : ∀ x, cs.getLast? = some x → isWs x = false) : trimChars cs = cs := by
  rw [trimChars_eq_right, dropWhile_eq_self_of_head hh]
  exact rightTrim_eq_self_of_last hl

theorem trimChars_idem (cs : List Char) : trimChars (trimChars cs) = trimChars cs :=
  trimChars_eq_self (fun _ h => trimChars_head_not_ws h)
    (fun _ h => trimChars_last_not_ws h)

theorem jsTrim_idem (s : String) : jsTrim (jsTrim s) = jsTrim s := by
  apply String.ext
  exact trimChars_idem s.data

theorem trimChars_cons_ws {c : Char} (hc : isWs c = true) (cs : List Char) :
    trimChars (c :: cs) = trimChars cs := by
  simp [trimChars, List.dropWhile_cons, hc]

theorem trimChars_concat_ws {c : Char} (hc : isWs c = true) (cs : List Char) :
    trimChars (cs ++ [c]) = trimChars cs := by
  rw [trimChars_eq_right, trimChars_eq_right, List.dropWhile_append]
  split
  · next h =>
    rw [List.isEmpty_iff] at h
    rw [h]
    simp [List.dropWhile_cons, hc, rightTrimChars]
  · exact rightTrim_concat_ws hc _

theorem mem_trimChars {cs : List Char} {x : Char} (h : x ∈ trimChars cs) : x ∈ cs := by
  rw [trimChars_eq_right, rightTrimChars] at h
  rw [List.mem_reverse] at h
  have h2 := (@List.dropWhile_sublist _ ((cs.dropWhile isWs).reverse) isWs).mem h
  rw [List.mem_reverse] at h2
  exact (@List.dropWhile_sublist _ cs isWs).mem h2

/-! ## Utility lemmas: newline splitting -/

theorem intercalate_cons2 {α : Type} (s : List α) (a b : List α) (t : List (List α)) :
    List.intercalate s (a :: b :: t) = a ++ s ++ List.intercalate s (b :: t) := by
  simp [List.intercalate, List.intersperse]

theorem splitOnChar_cons_sep (sep : Char) (cs : List Char) :
    splitOnChar sep (sep :: cs) = [] :: splitOnChar sep cs := by
  simp [splitOnChar]

theorem splitOnChar_ne_nil (sep : Char) (cs : List Char) : splitOnChar sep cs ≠ [] := by
  induction cs with
  | nil => simp [splitOnChar]
  | cons c cs ih =>
    by_cases hc : c = sep
    · subst hc
      rw [splitOnChar_cons_sep]
      simp
    · simp only [splitOnChar, if_neg hc]
      cases h : splitOnChar sep cs <;> simp

theorem splitOnChar_eq_cons (sep : Char) (cs : List Char) :
    ∃ l ls, splitOnChar sep cs = l :: ls := by
  cases h : splitOnChar sep cs with
  | nil => exact absurd h (splitOnChar_ne_nil sep cs)
  | cons l ls => exact ⟨l, ls, rfl⟩

theorem splitOnChar_cons_nonsep {sep c : Char} (hc : c ≠ sep) {cs l : List Char}
    {ls : List (List Char)} (h : splitOnChar sep cs = l :: ls) :
    splitOnChar sep (c :: cs) = (c :: l) :: ls := by
  simp only [splitOnChar, if_neg hc, h]

theorem not_mem_of_mem_splitOnChar {sep : Char} {cs l : List Char}
    (h : l ∈ splitOnChar sep cs) : sep ∉ l := by
  induction cs generalizing l with
  | nil =>
    simp [splitOnChar] at h
    subst h
    simp
  | cons c cs ih =>
    obtain ⟨m, ms, hm⟩ := splitOnChar_eq_cons sep cs
    by_cases hc : c = sep
    · subst hc
      rw [splitOnChar_cons_sep, List.mem_cons] at h
      rcases h with rfl | h
      · simp
      · exact ih h
    · rw [splitOnChar_cons_nonsep hc hm, List.mem_cons] at h
      rcases h with rfl | h
      · have hmem : sep ∉ m := ih (by rw [hm]; exact List.mem_cons_self m ms)
        simp only [List.mem_cons]
        rintro (rfl | hx)
        · exact hc rfl
        · exact hmem hx
      · exact ih (by rw [hm]; exact List.mem_cons_of_mem m h)

theorem splitOnChar_no_sep {sep : Char} {cs : List Char} (h : sep ∉ cs) :
    splitOnChar sep cs = [cs] := by
  induction cs with
  | nil => rfl
  | cons c cs ih =>
    have hc : c ≠ sep := by
      rintro rfl
      exact h (List.mem_cons_self c cs)
    have hcs : sep ∉ cs := fun hm => h (List.mem_cons_of_mem c hm)
    exact splitOnChar_cons_nonsep hc (ih hcs)

theorem splitOnChar_append_sep {sep : Char} {xs : List Char} (h : sep ∉ xs)
    (rest : List Char) :
    splitOnChar sep (xs ++ sep :: rest) = xs :: splitOnChar sep rest := by
  induction xs with
  | nil =>
    rw [List.nil_append, splitOnChar_cons_sep]
  | cons c cs ih =>
    have hc : c ≠ sep := by
      rintro rfl
      exact h (List.mem_cons_self c cs)
    have hcs : sep ∉ cs := fun hm => h (List.mem_cons_of_mem c hm)
    rw [List.cons_append]
    exact splitOnChar_cons_nonsep hc (ih hcs)

theorem splitOnChar_intercalate {sep : Char} {css : List (List Char)} (hne : css ≠ [])
    (h : ∀ cs ∈ css, sep ∉ cs) :
    splitOnChar sep (List.intercalate [sep] css) = css := by
  induction css with
  | nil => exact absurd rfl hne
  | cons a t ih =>
    cases t with
    | nil =>
      have : List.intercalate [sep] [a] = a := by
        simp [List.intercalate, List.intersperse]
      rw [this]
      exact splitOnChar_no_sep (h a (List.mem_cons_self a []))
    | cons b t2 =>
      rw [intercalate_cons2, List.append_assoc, List.singleton_append,
        splitOnChar_append_sep (h a (List.mem_cons_self a (b :: t2))),
        ih (by simp) (fun cs hcs => h cs (List.mem_cons_of_mem a hcs))]

theorem splitOnChar_concat_sep (sep : Char) (cs : List Char) :
    splitOnChar sep (cs ++ [sep]) = splitOnChar sep cs ++ [[]] := by
  induction cs with
  | nil =>
    rw [List.nil_append, splitOnChar_cons_sep]
    rfl
  | cons d ds ih =>
    obtain ⟨l, ls, hl⟩ := splitOnChar_eq_cons sep ds
    by_cases hd : d = sep
    · subst hd
      rw [List.cons_append, splitOnChar_cons_sep, ih, splitOnChar_cons_sep,
        List.cons_append]
    · rw [List.cons_append, splitOnChar_cons_nonsep hd (by rw [ih, hl]; rfl),
        splitOnChar_cons_nonsep hd hl, List.cons_append]
      rfl

theorem splitOnChar_concat_nonsep {sep c : Char} (hc : c ≠ sep) (cs : List Char) :
    ∃ pre lst, splitOnChar sep cs = pre ++ [lst] ∧
      splitOnChar sep (cs ++ [c]) = pre ++ [lst ++ [c]] := by
  induction cs with
  | nil =>
    refine ⟨[], [], rfl, ?_⟩
    rw [List.nil_append]
    exact splitOnChar_no_sep (by simp only [List.mem_singleton]; exact fun he => hc he.symm)
  | cons d ds ih =>
    obtain ⟨pre, lst, h1, h2⟩ := ih
    by_cases hd : d = sep
    · subst hd
      refine ⟨[] :: pre, lst, ?_, ?_⟩
      · rw [splitOnChar_cons_sep, h1]
        rfl
      · rw [List.cons_append, splitOnChar_cons_sep, h2]
        rfl
    · cases pre with
      | nil =>
        refine ⟨[], d :: lst, ?_, ?_⟩
        · rw [splitOnChar_cons_nonsep hd (by rw [h1]; rfl)]
          rfl
        · rw [List.cons_append, splitOnChar_cons_nonsep hd (by rw [h2]; rfl)]
          rfl
      | cons p ps =>
        refine ⟨(d :: p) :: ps, lst, ?_, ?_⟩
        · rw [splitOnChar_cons_nonsep hd (by rw [h1]; rfl)]
          rfl
        · rw [List.cons_append, splitOnChar_cons_nonsep hd (by rw [h2]; rfl)]
          rfl

/-! ## Utility lemmas: whitespace-run splitting -/

theorem wsSplitAux_nil (m : Bool) (acc : List Char) :
    wsSplitAux m [] acc = [acc.reverse] := rfl

theorem wsSplitAux_cons_ws_true {c : Char} (hc : isWs c = true) (cs acc : List Char) :
    wsSplitAux true (c :: cs) acc = wsSplitAux true cs acc := by
  simp [wsSplitAux, hc]

theorem wsSplitAux_cons_ws_false {c : Char} (hc : isWs c = true) (cs acc : List Char) :
    wsSplitAux false (c :: cs) acc = acc.reverse :: wsSplitAux true cs [] := by
  simp [wsSplitAux, hc]

theorem wsSplitAux_cons_nonws {c : Char} (hc : isWs c = false) (m : Bool)
    (cs acc : List Char) :
    wsSplitAux m (c :: cs) acc = wsSplitAux false cs (c :: acc) := by
  cases m <;> simp [wsSplitAux, hc]

theorem wsSplitAux_true_eq_false {cs : List Char}
    (h : ∀ x, cs.head? = some x → isWs x = false) (acc : List Char) :
    wsSplitAux true cs acc = wsSplitAux false cs acc := by
  cases cs with
  | nil => rfl
  | cons c cs =>
    have hc := h c rfl
    rw [wsSplitAux_cons_nonws hc, wsSplitAux_cons_nonws hc]

theorem wsSplitAux_nonws_prefix : ∀ (tok : List Char) (cs acc : List Char),
    (∀ c ∈ tok, isWs c = false) →
    wsSplitAux false (tok ++ cs) acc = wsSplitAux false cs (tok.reverse ++ acc)
  | [], cs, acc, _ => by simp
  | c :: t, cs, acc, h => by
    have hc : isWs c = false := h c (List.mem_cons_self c t)
    rw [List.cons_append, wsSplitAux_cons_nonws hc,
      wsSplitAux_nonws_prefix t cs (c :: acc) (fun x hx => h x (List.mem_cons_of_mem c hx))]
    congr 1
    simp

theorem wsSplitAux_mem_ne_nil : ∀ (n : Nat) (cs : List Char) (m : Bool) (acc : List Char),
    cs.length ≤ n →
    (∀ x, cs.getLast? = some x → isWs x = false) →
    (if m then acc = [] ∧ cs ≠ []
     else acc ≠ [] ∨ (cs ≠ [] ∧ ∀ x, cs.head? = some x → isWs x = false)) →
    ∀ l ∈ wsSplitAux m cs acc, l ≠ [] := by
  intro n
  induction n with
  | zero =>
    intro cs m acc hlen _ hmode l hl
    have hcs : cs = [] := List.length_eq_zero.mp (Nat.le_zero.mp hlen)
    subst hcs
    cases m with
    | true => exact absurd rfl hmode.2
    | false =>
      have hacc : acc ≠ [] := by
        rcases hmode with h | ⟨h, -⟩
        · exact h
        · exact absurd rfl h
      rw [wsSplitAux_nil, List.mem_singleton] at hl
      subst hl
      simpa using hacc
  | succ n ih =>
    intro cs m acc hlen hlast hmode l hl
    cases cs with
    | nil =>
      cases m with
      | true => exact absurd rfl hmode.2
      | false =>
        have hacc : acc ≠ [] := by
          rcases hmode with h | ⟨h, -⟩
          · exact h
          · exact absurd rfl h
        rw [wsSplitAux_nil, List.mem_singleton] at hl
        subst hl
        simpa using hacc
    | cons c cs2 =>
      have hlen2 : cs2.length ≤ n := by
        simpa using Nat.lt_succ_iff.mp (Nat.lt_of_lt_of_le (by simp) hlen)
      by_cases hc : isWs c = true
      · have hcs2 : cs2 ≠ [] := by
          rintro rfl
          have := hlast c rfl
          rw [hc] at this
          simp at this
        have hlast2 : ∀ x, cs2.getLast? = some x → isWs x = false := by
          intro x hx
          apply hlast
          cases cs2 with
          | nil => exact absurd rfl hcs2
          | cons c2 cs3 => rwa [List.getLast?_cons_cons]
        cases m with
        | true =>
          rw [wsSplitAux_cons_ws_true hc] at hl
          exact ih cs2 true acc hlen2 hlast2 (by simp [hmode.1, hcs2]) l hl
        | false =>
          have hacc : acc ≠ [] := by
            rcases hmode with h | ⟨-, h⟩
            · exact h
            · have := h c rfl
              rw [hc] at this
              simp at this
          rw [wsSplitAux_cons_ws_false hc, List.mem_cons] at hl
          rcases hl with rfl | hl
          · simpa using hacc
          · exact ih cs2 true [] hlen2 hlast2 (by simp [hcs2]) l hl
      · have hc2 : isWs c = false := by
          cases h : isWs c
          · rfl
          · exact absurd h hc
        have hlast2 : ∀ x, cs2.getLast? = some x → isWs x = false := by
          intro x hx
          apply hlast
          cases cs2 with
          | nil => simp at hx
          | cons c2 cs3 => rwa [List.getLast?_cons_cons]
        rw [wsSplitAux_cons_nonws hc2] at hl
        exact ih cs2 false (c :: acc) hlen2 hlast2 (by simp) l hl

theorem splitWsRuns_tokens_ne_empty {s : String}
    (hh : ∀ x, s.data.head? = some x → isWs x = false)
    (hl : ∀ x, s.data.getLast? = some x → isWs x = false)
    (hne : s.data ≠ []) :
    ∀ tok ∈ splitWsRuns s, tok ≠ "" := by
  intro tok htok
  simp only [splitWsRuns, List.mem_map] at htok
  obtain ⟨l, hmem, rfl⟩ := htok
  have := wsSplitAux_mem_ne_nil s.data.length s.data false [] le_rfl hl
    (Or.inr ⟨hne, hh⟩) l hmem
  intro he
  rw [str_empty_iff] at he
  exact this he

theorem intercalate_head? {b : List Char} (sep : Char) (t2 : List (List Char))
    (hb : b ≠ []) :
    (List.intercalate [sep] (b :: t2)).head? = b.head? := by
  cases t2 with
  | nil => simp [List.intercalate, List.intersperse]
  | cons c t3 =>
    rw [intercalate_cons2]
    rw [List.append_assoc, List.head?_append_of_ne_nil b hb]

theorem wsSplitAux_intercalate : ∀ (css : List (List Char)), css ≠ [] →
    (∀ cs ∈ css, cs ≠ [] ∧ ∀ c ∈ cs, isWs c = false) →
    wsSplitAux false (List.intercalate [' '] css) [] = css := by
  intro css
  induction css with
  | nil => exact fun h _ => absurd rfl h
  | cons a t ih =>
    intro _ h
    have ha := h a (List.mem_cons_self a t)
    cases t with
    | nil =>
      have : List.intercalate [' '] [a] = a := by
        simp [List.intercalate, List.intersperse]
      rw [this, ← List.append_nil a, wsSplitAux_nonws_prefix a [] [] ha.2,
        wsSplitAux_nil]
      simp
    | cons b t2 =>
      have hb := h b (List.mem_cons_of_mem a (List.mem_cons_self b t2))
      rw [intercalate_cons2, List.append_assoc, List.singleton_append,
        wsSplitAux_nonws_prefix a (' ' :: List.intercalate [' '] (b :: t2)) [] ha.2,
        wsSplitAux_cons_ws_false (by decide)]
      have hhead : ∀ x, (List.intercalate [' '] (b :: t2)).head? = some x → isWs x = false := by
        intro x hx
        rw [intercalate_head? ' ' t2 hb.1] at hx
        apply hb.2
        exact List.mem_of_mem_head? hx
      rw [wsSplitAux_true_eq_false hhead,
        ih (by simp) (fun cs hcs => h cs (List.mem_cons_of_mem a hcs))]
      simp

/-! ## Utility lemmas: decimal digits and `parseInt` -/

theorem digitChar_toNat {n : Nat} (h : n < 10) : (digitChar n).toNat = 48 + n := by
  interval_cases n <;> decide

theorem digitChar_isDigit {n : Nat} (h : n < 10) : (digitChar n).isDigit = true := by
  interval_cases n <;> decide

theorem digit_not_ws {c : Char} (h : c.isDigit = true) : isWs c = false := by
  cases hc : isWs c
  · rfl
  · exfalso
    simp only [isWs, Bool.or_eq_true, decide_eq_true_eq] at hc
    rcases hc with ((rfl | rfl) | rfl) | rfl <;> exact absurd h (by decide)

theorem ne_of_digit_of_not_digit {c : Char} (h : c.isDigit = true) (d : Char)
    (hd : d.isDigit = false) : c ≠ d := by
  rintro rfl
  rw [h] at hd
  cases hd

theorem natDigitsAux_congr : ∀ (fuel fuel' n : Nat), n < fuel → n < fuel' →
    natDigitsAux fuel n = natDigitsAux fuel' n := by
  intro fuel
  induction fuel with
  | zero => exact fun fuel' n hn _ => absurd hn (Nat.not_lt_zero n)
  | succ f ih =>
    intro fuel' n hn hn'
    cases fuel' with
    | zero => exact absurd hn' (Nat.not_lt_zero n)
    | succ f2 =>
      simp only [natDigitsAux]
      by_cases h10 : n < 10
      · simp [h10]
      · simp only [if_neg h10]
        have hdiv : n / 10 < n := Nat.div_lt_self (by omega) (by omega)
        rw [ih f2 (n / 10) (by omega) (by omega)]

theorem natDigits_eq (n : Nat) : natDigits n =
    if n < 10 then [digitChar n] else natDigits (n / 10) ++ [digitChar (n % 10)] := by
  show natDigitsAux (n + 1) n = _
  simp only [natDigitsAux]
  by_cases h10 : n < 10
  · simp [h10]
  · simp only [if_neg h10]
    have hdiv : n / 10 < n := Nat.div_lt_self (by omega) (by omega)
    rw [natDigitsAux_congr n (n / 10 + 1) (n / 10) (by omega) (by omega)]
    rfl

theorem natDigits_all_digit (n : Nat) : ∀ c ∈ natDigits n, c.isDigit = true := by
  induction n using Nat.strong_induction_on with
  | _ n ih =>
    rw [natDigits_eq]
    by_cases h10 : n < 10
    · simp only [if_pos h10, List.mem_singleton]
      rintro c rfl
      exact digitChar_isDigit h10
    · simp only [if_neg h10, List.mem_append, List.mem_singleton]
      rintro c (hc | rfl)
      · exact ih (n / 10) (Nat.div_lt_self (by omega) (by omega)) c hc
      · exact digitChar_isDigit (Nat.mod_lt n (by omega))

theorem natDigits_ne_nil (n : Nat) : natDigits n ≠ [] := by
  rw [natDigits_eq]
  split <;> simp

theorem digitsVal_concat (ds : List Char) (c : Char) :
    digitsVal (ds ++ [c]) = digitsVal ds * 10 + (c.toNat - 48) := by
  simp [digitsVal, List.foldl_append]

theorem digitsVal_natDigits (n : Nat) : digitsVal (natDigits n) = n := by
  induction n using Nat.strong_induction_on with
  | _ n ih =>
    rw [natDigits_eq]
    by_cases h10 : n < 10
    · simp only [if_pos h10]
      simp [digitsVal, digitChar_toNat h10]
    · simp only [if_neg h10, digitsVal_concat,
        ih (n / 10) (Nat.div_lt_self (by omega) (by omega)),
        digitChar_toNat (Nat.mod_lt n (by omega))]
      omega

theorem takeWhile_eq_self_of_all {p : Char → Bool} {l : List Char}
    (h : ∀ c ∈ l, p c = true) : l.takeWhile p = l := by
  induction l with
  | nil => rfl
  | cons c cs ih =>
    rw [List.takeWhile_cons, if_pos (h c (List.mem_cons_self c cs)),
      ih (fun x hx => h x (List.mem_cons_of_mem c hx))]

theorem jsParseInt_all_digits {cs : List Char} (hne : cs ≠ [])
    (h : ∀ c ∈ cs, c.isDigit = true) :
    jsParseInt ⟨cs⟩ = some ((digitsVal cs : Nat) : Int) := by
  obtain ⟨d, ds, rfl⟩ : ∃ d ds, cs = d :: ds := by
    cases cs with
    | nil => exact absurd rfl hne
    | cons d ds => exact ⟨d, ds, rfl⟩
  have hd : d.isDigit = true := h d (List.mem_cons_self d ds)
  have hnws : (d :: ds).dropWhile isWs = d :: ds := by
    apply dropWhile_eq_self_of_head
    intro x hx
    rw [List.head?_cons, Option.some.injEq] at hx
    subst hx
    exact digit_not_ws hd
  have htake : (d :: ds).takeWhile Char.isDigit = d :: ds :=
    takeWhile_eq_self_of_all h
  simp only [jsParseInt, strData_mk]
  rw [hnws]
  rw [if_neg, if_neg]
  · rw [htake, if_neg (List.cons_ne_nil d ds)]
  · simp only [List.head?_cons, Option.some.injEq]
    exact ne_of_digit_of_not_digit hd '+' (by decide)
  · simp only [List.head?_cons, Option.some.injEq]
    exact ne_of_digit_of_not_digit hd '-' (by decide)

theorem jsParseInt_natDigits (n : Nat) : jsParseInt ⟨natDigits n⟩ = some (n : Int) := by
  rw [jsParseInt_all_digits (natDigits_ne_nil n) (natDigits_all_digit n),
    digitsVal_natDigits]

theorem intDecString_of_nonneg {i : Int} (h : 0 ≤ i) :
    intDecString i = ⟨natDigits i.toNat⟩ := by
  rw [intDecString, if_neg (by omega)]

theorem jsParseInt_intDecString_of_nonneg {i : Int} (h : 0 ≤ i) :
    jsParseInt (intDecString i) = some i := by
  rw [intDecString_of_nonneg h, jsParseInt_natDigits, Int.toNat_of_nonneg h]

theorem intDecString_ne_empty (i : Int) : intDecString i ≠ "" := by
  intro he
  rw [str_empty_iff] at he
  by_cases h : i < 0
  · rw [intDecString, if_pos h, strData_mk] at he
    cases he
  · rw [intDecString, if_neg h, strData_mk] at he
    exact natDigits_ne_nil _ he

/-! ## Utility lemmas: the parser loop -/

/-- The outcome of a line with the error message forgotten:
`some none` for a skipped blank line, `none` for a failure, `some (some p)`
for a parsed player. -/
def LineResult.shape : LineResult → Option (Option Player)
  | .blank => some none
  | .bad _ => none
  | .ok p => some (some p)

/-- The line outcome computed from the trimmed line only. -/
def lineShape (t : String) : Option (Option Player) :=
  if t = "" then some none
  else
    let processed := if endsStar t then jsTrim ⟨t.data.dropLast⟩ else t
    let parts := splitWsRuns processed
    if parts.length < 3 then none
    else
      match jsParseInt (parts.headD "") with
      | none => none
      | some rank =>
        let position := parts.getLastD ""
        let name := joinSpace ((parts.drop 1).dropLast)
        if name = "" ∨ position = "" then none
        else some (some ⟨rank, name, position, endsStar t⟩)

theorem parseOneLine_shape (line : String) :
    (parseOneLine line).shape = lineShape (jsTrim line) := by
  simp only [parseOneLine, lineShape]
  by_cases h1 : jsTrim line = ""
  · rw [if_pos h1, if_pos h1]
    rfl
  · rw [if_neg h1, if_neg h1]
    by_cases h2 : (splitWsRuns (if endsStar (jsTrim line) = true then
        jsTrim ⟨(jsTrim line).data.dropLast⟩ else jsTrim line)).length < 3
    · rw [if_pos h2, if_pos h2]
      rfl
    · rw [if_neg h2, if_neg h2]
      cases h3 : jsParseInt ((splitWsRuns (if endsStar (jsTrim line) = true then
          jsTrim ⟨(jsTrim line).data.dropLast⟩ else jsTrim line)).headD "") with
      | none => rfl
      | some rank =>
        simp only []
        by_cases h4 : joinSpace (((splitWsRuns (if endsStar (jsTrim line) = true then
            jsTrim ⟨(jsTrim line).data.dropLast⟩ else jsTrim line)).drop 1).dropLast) = "" ∨
            (splitWsRuns (if endsStar (jsTrim line) = true then
            jsTrim ⟨(jsTrim line).data.dropLast⟩ else jsTrim line)).getLastD "" = ""
        · rw [if_pos h4, if_pos h4]
          rfl
        · rw [if_neg h4, if_neg h4]
          rfl

theorem parseOneLine_empty : parseOneLine "" = .blank := by decide

/-- Results agree on players and on the presence of an error. -/
def sameShapeR (x y : ParseResult) : Prop :=
  x.players = y.players ∧ x.error.isSome = y.error.isSome

theorem sameShapeR_refl (x : ParseResult) : sameShapeR x x := ⟨rfl, rfl⟩

theorem sameShapeR_trans {x y z : ParseResult} (h1 : sameShapeR x y)
    (h2 : sameShapeR y z) : sameShapeR x z :=
  ⟨h1.1.trans h2.1, h1.2.trans h2.2⟩

theorem parseLines_acc_eq : ∀ (ls : List String) (acc : List Player),
    parseLines ls acc =
      ⟨if (parseLines ls []).error = none then acc ++ (parseLines ls []).players else [],
       (parseLines ls []).error⟩ := by
  intro ls
  induction ls with
  | nil => intro acc; simp [parseLines]
  | cons l rest ih =>
    intro acc
    cases hl : parseOneLine l with
    | blank =>
      simp only [parseLines, hl]
      exact ih acc
    | bad m =>
      simp only [parseLines, hl]
      simp
    | ok p =>
      simp only [parseLines, hl, List.nil_append]
      rw [ih (acc ++ [p]), ih [p]]
      by_cases he : (parseLines rest []).error = none
      · simp [he, List.append_assoc]
      · simp [he]

theorem parseLines_players_nil_of_error {ls : List String} {acc : List Player}
    (h : (parseLines ls acc).error ≠ none) : (parseLines ls acc).players = [] := by
  rw [parseLines_acc_eq] at h ⊢
  simp only at h ⊢
  rw [if_neg]
  intro he
  exact h (by simp [he])

theorem parseLines_no_bad_of_error_none : ∀ (ls : List String) (acc : List Player),
    (parseLines ls acc).error = none → ∀ l ∈ ls, ∀ m, parseOneLine l ≠ .bad m := by
  intro ls
  induction ls with
  | nil => intro acc _ l hl; simp at hl
  | cons a rest ih =>
    intro acc herr l hl m
    cases ha : parseOneLine a with
    | blank =>
      rw [List.mem_cons] at hl
      rcases hl with rfl | hl
      · rw [ha]; intro h; cases h
      · simp only [parseLines, ha] at herr
        exact ih acc herr l hl m
    | bad m2 =>
      simp only [parseLines, ha] at herr
      cases herr
    | ok p =>
      rw [List.mem_cons] at hl
      rcases hl with rfl | hl
      · rw [ha]; intro h; cases h
      · simp only [parseLines, ha] at herr
        exact ih (acc ++ [p]) herr l hl m

theorem parseLines_cons_shape {a b : String}
    (h : (parseOneLine a).shape = (parseOneLine b).shape) (ls : List String)
    (acc : List Player) :
    sameShapeR (parseLines (a :: ls) acc) (parseLines (b :: ls) acc) := by
  cases ha : parseOneLine a <;> cases hb : parseOneLine b <;>
    rw [ha, hb] at h <;> simp only [LineResult.shape] at h <;>
    simp only [parseLines, ha, hb]
  · exact sameShapeR_refl _
  · cases h
  · cases h
  · cases h
  · exact ⟨rfl, rfl⟩
  · cases h
  · cases h
  · cases h
  · rw [Option.some.injEq, Option.some.injEq] at h
    rw [h]
    exact sameShapeR_refl _

theorem parseLines_concat_shape {a b : String}
    (h : (parseOneLine a).shape = (parseOneLine b).shape) : ∀ (ls : List String)
    (acc : List Player),
    sameShapeR (parseLines (ls ++ [a]) acc) (parseLines (ls ++ [b]) acc) := by
  intro ls
  induction ls with
  | nil => exact fun acc => parseLines_cons_shape h [] acc
  | cons l rest ih =>
    intro acc
    cases hl : parseOneLine l with
    | blank =>
      simp only [List.cons_append, parseLines, hl]
      exact ih acc
    | bad m =>
      simp only [List.cons_append, parseLines, hl]
      exact sameShapeR_refl _
    | ok p =>
      simp only [List.cons_append, parseLines, hl]
      exact ih (acc ++ [p])

theorem parseLines_concat_blank : ∀ (ls : List String) (acc : List Player),
    parseLines (ls ++ [""]) acc = parseLines ls acc := by
  intro ls
  induction ls with
  | nil =>
    intro acc
    simp only [List.nil_append, parseLines, parseOneLine_empty]
  | cons l rest ih =>
    intro acc
    cases hl : parseOneLine l with
    | blank =>
      simp only [List.cons_append, parseLines, hl]
      exact ih acc
    | bad m => simp only [List.cons_append, parseLines, hl]
    | ok p =>
      simp only [List.cons_append, parseLines, hl]
      exact ih (acc ++ [p])

/-- Parsing a character-list text through newline splitting. -/
def parseSplit (cs : List Char) : ParseResult :=
  parseLines ((splitOnChar '\n' cs).map String.mk) []

theorem parseSplit_dropWhile (cs : List Char) :
    sameShapeR (parseSplit (cs.dropWhile isWs)) (parseSplit cs) := by
  induction cs with
  | nil => exact sameShapeR_refl _
  | cons c cs ih =>
    by_cases hc : isWs c = true
    · rw [List.dropWhile_cons_of_pos hc]
      refine sameShapeR_trans ih ?_
      by_cases hnl : c = '\n'
      · subst hnl
        have h0 : parseSplit ('\n' :: cs) =
            parseLines ("" :: (splitOnChar '\n' cs).map String.mk) [] := by
          rw [parseSplit, splitOnChar_cons_sep, List.map_cons]
        have : parseSplit ('\n' :: cs) = parseSplit cs := by
          rw [h0]
          simp only [parseLines, parseOneLine_empty]
          rfl
        rw [this]
        exact sameShapeR_refl _
      · obtain ⟨l, ls, hl⟩ := splitOnChar_eq_cons '\n' cs
        have hsh : (parseOneLine ⟨l⟩).shape = (parseOneLine ⟨c :: l⟩).shape := by
          rw [parseOneLine_shape, parseOneLine_shape]
          congr 1
          apply String.ext
          exact (trimChars_cons_ws hc l).symm
        have h1 : parseSplit cs = parseLines (⟨l⟩ :: ls.map String.mk) [] := by
          rw [parseSplit, hl, List.map_cons]
        have h2 : parseSplit (c :: cs) = parseLines (⟨c :: l⟩ :: ls.map String.mk) [] := by
          rw [parseSplit, splitOnChar_cons_nonsep hnl hl, List.map_cons]
        rw [h1, h2]
        exact parseLines_cons_shape hsh _ _
    · rw [List.dropWhile_cons_of_neg (by simp [hc])]
      exact sameShapeR_refl _

theorem parseSplit_rightTrim (cs : List Char) :
    sameShapeR (parseSplit (rightTrimChars cs)) (parseSplit cs) := by
  induction cs using List.reverseRecOn with
  | nil => exact sameShapeR_refl _
  | append_singleton ds c ih =>
    by_cases hc : isWs c = true
    · rw [rightTrim_concat_ws hc]
      refine sameShapeR_trans ih ?_
      by_cases hnl : c = '\n'
      · subst hnl
        have : parseSplit (ds ++ ['\n']) = parseSplit ds := by
          rw [parseSplit, splitOnChar_concat_sep, List.map_append, List.map_cons,
            List.map_nil]
          exact parseLines_concat_blank _ []
        rw [this]
        exact sameShapeR_refl _
      · obtain ⟨pre, lst, h1, h2⟩ := splitOnChar_concat_nonsep hnl ds
        have hsh : (parseOneLine ⟨lst⟩).shape = (parseOneLine ⟨lst ++ [c]⟩).shape := by
          rw [parseOneLine_shape, parseOneLine_shape]
          congr 1
          apply String.ext
          exact (trimChars_concat_ws hc lst).symm
        have e1 : parseSplit ds = parseLines (pre.map String.mk ++ [⟨lst⟩]) [] := by
          rw [parseSplit, h1, List.map_append, List.map_cons, List.map_nil]
        have e2 : parseSplit (ds ++ [c]) =
            parseLines (pre.map String.mk ++ [⟨lst ++ [c]⟩]) [] := by
          rw [parseSplit, h2, List.map_append, List.map_cons, List.map_nil]
        rw [e1, e2]
        exact parseLines_concat_shape hsh _ _
    · rw [rightTrim_concat_nonws (by simp at hc; simp [hc]) ds]
      exact sameShapeR_refl _

theorem parsePlayerText_sameShape_split (s : String) :
    sameShapeR (parsePlayerText s) (parseLines (jsSplitNl s) []) := by
  have h1 : parsePlayerText s = parseSplit (trimChars s.data) := rfl
  have h2 : parseLines (jsSplitNl s) [] = parseSplit s.data := rfl
  rw [h1, h2, trimChars_eq_right]
  exact sameShapeR_trans (parseSplit_rightTrim (s.data.dropWhile isWs))
    (parseSplit_dropWhile s.data)

/-! ## Utility lemmas: the snake board -/

theorem getD_set_self {α : Type} (l : List α) (i : Nat) (a d : α) (h : i < l.length) :
    (l.set i a).getD i d = a := by
  rw [List.getD_eq_getElem?_getD, List.getElem?_set_self h]
  rfl

theorem getD_set_ne {α : Type} (l : List α) {i j : Nat} (a d : α) (h : i ≠ j) :
    (l.set i a).getD j d = l.getD j d := by
  rw [List.getD_eq_getElem?_getD, List.getElem?_set_ne h, ← List.getD_eq_getElem?_getD]

theorem getD_replicate {α : Type} (n : Nat) (a d : α) (i : Nat) :
    (List.replicate n a).getD i d = if i < n then a else d := by
  rw [List.getD_eq_getElem?_getD, List.getElem?_replicate]
  split <;> rfl

theorem getD_mem {α : Type} {l : List α} {i : Nat} (d : α) (h : i < l.length) :
    l.getD i d ∈ l := by
  rw [List.getD_eq_getElem?_getD, List.getElem?_eq_getElem h]
  exact List.getElem_mem h

/-- Reading a slot of the rounds matrix. -/
def readSlot (rs : List (List (Option Player))) (r t : Nat) : Option Player :=
  (rs.getD r []).getD t none

theorem readSlot_setSlot_same {rs : List (List (Option Player))} {r t : Nat}
    {p : Player} (hr : r < rs.length) (ht : t < (rs.getD r []).length) :
    readSlot (setSlot rs r t p) r t = some p := by
  unfold readSlot setSlot
  rw [getD_set_self _ _ _ _ hr, getD_set_self _ _ _ _ ht]

theorem readSlot_setSlot_other {rs : List (List (Option Player))} {r t r2 t2 : Nat}
    {p : Player} (h : ¬(r = r2 ∧ t = t2)) :
    readSlot (setSlot rs r t p) r2 t2 = readSlot rs r2 t2 := by
  unfold readSlot setSlot
  by_cases hr : r = r2
  · subst hr
    have ht : t ≠ t2 := fun he => h ⟨rfl, he⟩
    by_cases hrlen : r < rs.length
    · rw [getD_set_self _ _ _ _ hrlen, getD_set_ne _ _ _ ht]
    · rw [List.set_eq_of_length_le (by omega)]
  · rw [getD_set_ne _ _ _ hr]

theorem length_setSlot (rs : List (List (Option Player))) (r t : Nat) (p : Player) :
    (setSlot rs r t p).length = rs.length :=
  List.length_set rs r _

theorem setSlot_width {rs : List (List (Option Player))} {r t : Nat} {p : Player}
    {T : Nat} (hw : ∀ row ∈ rs, row.length = T) :
    ∀ row ∈ setSlot rs r t p, row.length = T := by
  intro row hrow
  by_cases hr : r < rs.length
  · unfold setSlot at hrow
    rcases List.mem_or_eq_of_mem_set hrow with hmem | heq
    · exact hw row hmem
    · rw [heq, List.length_set]
      exact hw _ (getD_mem [] hr)
  · unfold setSlot at hrow
    rw [List.set_eq_of_length_le (by omega)] at hrow
    exact hw row hrow

theorem teamIdxOf_lt {T : Nat} (hT : 0 < T) (i : Nat) : teamIdxOf T i < T := by
  unfold teamIdxOf
  have := Nat.mod_lt i hT
  split <;> omega

theorem snakeIdx_inj {T : Nat} (hT : 0 < T) {i j : Nat} (hdiv : i / T = j / T)
    (hteam : teamIdxOf T i = teamIdxOf T j) : i = j := by
  unfold teamIdxOf at hteam
  rw [hdiv] at hteam
  have hi := Nat.mod_lt i hT
  have hj := Nat.mod_lt j hT
  have hmod : i % T = j % T := by
    split at hteam
    · exact hteam
    · omega
  calc i = T * (i / T) + i % T := (Nat.div_add_mod i T).symm
    _ = T * (j / T) + j % T := by rw [hdiv, hmod]
    _ = j := Nat.div_add_mod j T

/-- The list index landing in grid cell (round `r`, team `t`). -/
def slotIndex (T r t : Nat) : Nat :=
  r * T + (if r % 2 = 0 then t else T - 1 - t)

theorem slotIndex_divmod {T : Nat} (hT : 0 < T) (r : Nat) {t : Nat} (ht : t < T) :
    slotIndex T r t / T = r ∧
      slotIndex T r t % T = (if r % 2 = 0 then t else T - 1 - t) := by
  unfold slotIndex
  have hofs : (if r % 2 = 0 then t else T - 1 - t) < T := by split <;> omega
  constructor
  · rw [Nat.add_comm, Nat.mul_comm, Nat.add_mul_div_left _ _ hT, Nat.div_eq_of_lt hofs,
      Nat.zero_add]
  · rw [Nat.add_comm, Nat.mul_comm, Nat.add_mul_mod_self_left, Nat.mod_eq_of_lt hofs]

theorem teamIdxOf_slotIndex {T : Nat} (hT : 0 < T) (r : Nat) {t : Nat} (ht : t < T) :
    teamIdxOf T (slotIndex T r t) = t := by
  obtain ⟨hdiv, hmod⟩ := slotIndex_divmod hT r ht
  unfold teamIdxOf
  rw [hdiv, hmod]
  by_cases hr : r % 2 = 0
  · simp [hr]
  · rw [if_neg hr, if_neg hr]
    omega

theorem slotIndex_of_divmod {T : Nat} (hT : 0 < T) (i : Nat) :
    slotIndex T (i / T) (teamIdxOf T i) = i := by
  unfold slotIndex teamIdxOf
  have hmod := Nat.mod_lt i hT
  by_cases hr : (i / T) % 2 = 0
  · simp only [if_pos hr]
    exact Nat.div_add_mod' i T
  · simp only [if_neg hr]
    have h2 : T - 1 - (T - 1 - i % T) = i % T := by omega
    rw [h2]
    exact Nat.div_add_mod' i T

theorem fold_enumFrom_untouched (T : Nat) : ∀ (ps : List Player) (n : Nat)
    (rs : List (List (Option Player))) (r t : Nat),
    (∀ k, k < ps.length → ¬((n + k) / T = r ∧ teamIdxOf T (n + k) = t)) →
    readSlot (List.foldl (fun rs ip => setSlot rs (ip.1 / T) (teamIdxOf T ip.1) ip.2) rs
      (List.enumFrom n ps)) r t = readSlot rs r t := by
  intro ps
  induction ps with
  | nil => intro n rs r t _; rfl
  | cons p ps ih =>
    intro n rs r t h
    rw [List.enumFrom_cons, List.foldl_cons]
    rw [ih (n + 1) _ r t (fun k hk => by
      have e : n + 1 + k = n + (k + 1) := by omega
      rw [e]
      exact h (k + 1) (by simpa using hk))]
    exact readSlot_setSlot_other (by
      have := h 0 (by simp)
      simpa using this)

theorem fold_enumFrom_hit (T : Nat) (hT : 0 < T) : ∀ (ps : List Player) (n : Nat)
    (rs : List (List (Option Player))),
    (∀ row ∈ rs, row.length = T) →
    (∀ k, k < ps.length → (n + k) / T < rs.length) →
    ∀ k (hk : k < ps.length),
    readSlot (List.foldl (fun rs ip => setSlot rs (ip.1 / T) (teamIdxOf T ip.1) ip.2) rs
      (List.enumFrom n ps)) ((n + k) / T) (teamIdxOf T (n + k)) =
      some (ps.get ⟨k, hk⟩) := by
  intro ps
  induction ps with
  | nil => intro n rs _ _ k hk; exact absurd hk (by simp)
  | cons p ps ih =>
    intro n rs hw hrange k hk
    rw [List.enumFrom_cons, List.foldl_cons]
    cases k with
    | zero =>
      simp only [Nat.add_zero]
      rw [fold_enumFrom_untouched T ps (n + 1) _ (n / T) (teamIdxOf T n)
        (fun k2 hk2 => by
          rintro ⟨hdiv, hteam⟩
          have := snakeIdx_inj hT hdiv hteam
          omega)]
      have hr : n / T < rs.length := by
        have := hrange 0 (by simp)
        simpa using this
      have ht : teamIdxOf T n < (rs.getD (n / T) []).length := by
        rw [hw _ (getD_mem [] hr)]
        exact teamIdxOf_lt hT n
      exact readSlot_setSlot_same hr ht
    | succ k2 =>
      have e : n + (k2 + 1) = n + 1 + k2 := by omega
      rw [e]
      have hk2 : k2 < ps.length := by simpa using hk
      have := ih (n + 1) (setSlot rs (n / T) (teamIdxOf T n) p)
        (setSlot_width hw)
        (fun k3 hk3 => by
          rw [length_setSlot]
          have e2 : n + 1 + k3 = n + (k3 + 1) := by omega
          rw [e2]
          exact hrange (k3 + 1) (by simpa using hk3)) k2 hk2
      rw [this]
      rfl

/-- The closed form of a board slot: team `t` in round `r` holds the player
at list index `slotIndex T r t` when that index exists. -/
def snakeSlot (players : List Player) (T r t : Nat) : Option Player :=
  if t < T then players[slotIndex T r t]? else none

theorem generateSnakeDraft_eq (players : List Player) (numTeams : Int)
    (hT : 0 < numTeams) (hp : players ≠ []) :
    generateSnakeDraft players numTeams =
      (List.range numTeams.toNat).map (fun t => (teamLabel t,
        (List.range ((players.length + numTeams.toNat - 1) / numTeams.toNat)).map
          (fun r => snakeSlot players numTeams.toNat r t))) := by
  have hp0 : players.length ≠ 0 := by simpa using hp
  have hT2 : 0 < numTeams.toNat := by omega
  rw [generateSnakeDraft, if_neg (by push_neg; exact ⟨hp0, by omega⟩)]
  simp only []
  apply List.map_congr_left
  intro t htmem
  rw [List.mem_range] at htmem
  refine Prod.ext rfl ?_
  simp only []
  apply List.map_congr_left
  intro r hrmem
  rw [List.mem_range] at hrmem
  set T := numTeams.toNat with hTdef
  set L := players.length with hLdef
  set nR := (L + T - 1) / T with hnRdef
  have hnR : nR = (L - 1) / T + 1 := by
    have e : L + T - 1 = (L - 1) + T := by omega
    rw [hnRdef, e, Nat.add_div_right _ hT2]
  have hrange : ∀ k, k < L → k / T < nR := by
    intro k hk
    have h1 : k / T ≤ (L - 1) / T := Nat.div_le_div_right (by omega)
    omega
  have hinit_len : (List.replicate nR (List.replicate T (none : Option Player))).length = nR :=
    List.length_replicate nR _
  have hinit_w : ∀ row ∈ List.replicate nR (List.replicate T (none : Option Player)),
      row.length = T := by
    intro row hrow
    rw [List.eq_of_mem_replicate hrow]
    exact List.length_replicate T none
  show readSlot (List.foldl _ _ players.enum) r t = snakeSlot players T r t
  rw [List.enum_eq_enumFrom]
  by_cases hi : slotIndex T r t < L
  · have hhit := fold_enumFrom_hit T hT2 players 0
      (List.replicate nR (List.replicate T none)) hinit_w
      (fun k hk => by
        rw [hinit_len]
        simpa using hrange k hk) (slotIndex T r t) hi
    simp only [Nat.zero_add] at hhit
    rw [(slotIndex_divmod hT2 r htmem).1] at hhit
    rw [teamIdxOf_slotIndex hT2 r htmem] at hhit
    rw [hhit, snakeSlot, if_pos htmem, List.getElem?_eq_getElem hi]
    rfl
  · rw [fold_enumFrom_untouched T players 0 _ r t (fun k hk => by
      rintro ⟨hdiv, hteam⟩
      have : slotIndex T r t = k := by
        rw [← hdiv, ← hteam]
        simp only [Nat.zero_add]
        exact slotIndex_of_divmod hT2 k
      simp only [Nat.zero_add] at this
      omega)]
    rw [readSlot, getD_replicate, if_pos hrmem, getD_replicate,
      snakeSlot, if_pos htmem, List.getElem?_eq_none (by omega)]
    split <;> rfl

/-! ## Utility lemmas: counting non-empty slots -/

theorem sum_map_range (f : Nat → Nat) (n : Nat) :
    ((List.range n).map f).sum = ∑ i ∈ Finset.range n, f i := by
  induction n with
  | zero => simp
  | succ n ih =>
    rw [List.range_succ, List.map_append, List.sum_append, Finset.sum_range_succ, ih]
    simp

theorem countP_range_eq_sum (q : Nat → Bool) (n : Nat) :
    List.countP q (List.range n) = ∑ i ∈ Finset.range n, if q i = true then 1 else 0 := by
  induction n with
  | zero => simp
  | succ n ih =>
    rw [List.range_succ, List.countP_append, Finset.sum_range_succ, ih]
    by_cases h : q n = true
    · simp [List.countP_cons, h]
    · simp [List.countP_cons, h]

theorem sum_range_add_nat (f : Nat → Nat) (a b : Nat) :
    ∑ i ∈ Finset.range (a + b), f i =
      (∑ i ∈ Finset.range a, f i) + ∑ i ∈ Finset.range b, f (a + i) := by
  rw [Finset.range_eq_Ico, ← Finset.sum_Ico_consecutive f (Nat.zero_le a) (by omega),
    ← Finset.range_eq_Ico, Finset.sum_Ico_eq_sum_range]
  simp

theorem sum_blocks_eq_range (g : Nat → Nat) (T : Nat) : ∀ (m : Nat),
    (∑ r ∈ Finset.range m, ∑ x ∈ Finset.range T, g (r * T + x)) =
      ∑ i ∈ Finset.range (m * T), g i := by
  intro m
  induction m with
  | zero => simp
  | succ m ih =>
    rw [Finset.sum_range_succ, ih, Nat.succ_mul, sum_range_add_nat]

theorem sum_indicator_lt (L : Nat) : ∀ (N : Nat),
    (∑ i ∈ Finset.range N, if i < L then 1 else 0) = min L N := by
  intro N
  induction N with
  | zero => simp
  | succ N ih =>
    rw [Finset.sum_range_succ, ih]
    by_cases h : N < L
    · rw [if_pos h]
      omega
    · rw [if_neg h]
      omega

theorem isSome_snakeSlot {players : List Player} {T r t : Nat} (ht : t < T) :
    (snakeSlot players T r t).isSome =
      decide (slotIndex T r t < players.length) := by
  rw [snakeSlot, if_pos ht]
  by_cases h : slotIndex T r t < players.length
  · rw [List.getElem?_eq_getElem h]
    simp [h]
  · rw [List.getElem?_eq_none (by omega)]
    simp [h]

theorem snake_count_total (players : List Player) (T nR : Nat) (_hT : 0 < T)
    (hLle : players.length ≤ nR * T) :
    ((List.range T).map
      (fun t => List.countP (fun o => o.isSome)
        ((List.range nR).map (fun r => snakeSlot players T r t)))).sum =
      players.length := by
  set L := players.length with hL
  have step1 : ∀ t, t < T →
      List.countP (fun o => o.isSome)
          ((List.range nR).map (fun r => snakeSlot players T r t)) =
        ∑ r ∈ Finset.range nR, if slotIndex T r t < L then 1 else 0 := by
    intro t ht
    rw [List.countP_map, countP_range_eq_sum]
    apply Finset.sum_congr rfl
    intro r _
    have : ((fun o => Option.isSome o) ∘ fun r => snakeSlot players T r t) r =
        decide (slotIndex T r t < L) := isSome_snakeSlot ht
    rw [this]
    by_cases h : slotIndex T r t < L
    · simp [h]
    · simp [h]
  have step2 : ((List.range T).map
      (fun t => List.countP (fun o => o.isSome)
        ((List.range nR).map (fun r => snakeSlot players T r t)))).sum =
      ∑ t ∈ Finset.range T, ∑ r ∈ Finset.range nR, if slotIndex T r t < L then 1 else 0 := by
    rw [sum_map_range]
    apply Finset.sum_congr rfl
    intro t ht
    rw [Finset.mem_range] at ht
    exact step1 t ht
  rw [step2, Finset.sum_comm]
  have step3 : ∀ r, (∑ t ∈ Finset.range T, if slotIndex T r t < L then 1 else 0) =
      ∑ x ∈ Finset.range T, if r * T + x < L then 1 else 0 := by
    intro r
    by_cases hr : r % 2 = 0
    · apply Finset.sum_congr rfl
      intro t _
      rw [slotIndex, if_pos hr]
    · have hrefl := Finset.sum_range_reflect
        (fun x => if r * T + x < L then 1 else 0) T
      rw [← hrefl]
      apply Finset.sum_congr rfl
      intro t _
      rw [slotIndex, if_neg hr]
  rw [Finset.sum_congr rfl (fun r _ => step3 r)]
  rw [show (∑ r ∈ Finset.range nR, ∑ x ∈ Finset.range T, if r * T + x < L then 1 else 0) =
      ∑ i ∈ Finset.range (nR * T), if i < L then 1 else 0 from
    sum_blocks_eq_range (fun i => if i < L then 1 else 0) T nR]
  rw [sum_indicator_lt]
  omega

/-! ## Claim C1: the snake board generator -/

theorem getD_map_range {α : Type} (f : Nat → α) {n i : Nat} (d : α) (h : i < n) :
    ((List.range n).map f).getD i d = f i := by
  rw [List.getD_eq_getElem?_getD, List.getElem?_map, List.getElem?_range h]
  rfl

/-- **C1**: for every non-empty player list and team count `T > 0` the board
generator produces the keys `Team 1` … `Team T` in numeric order; every team
is mapped to exactly `(L+T-1)/T` slots, which is `ceil(L/T)` (pinned by
`L ≤ nR*T < L+T`); the player at list index `i` occupies round `i/T` at team
index `i % T` on even rounds and `T-1-(i % T)` on odd rounds; exactly `L`
slots across all teams are non-empty; and an empty list or non-positive team
count yields the empty mapping. -/
theorem c1_snake_board_generator (players : List Player) (numTeams : Int)
    (hT : 0 < numTeams) (hp : players ≠ []) :
    ((generateSnakeDraft players numTeams).map Prod.fst =
        (List.range numTeams.toNat).map teamLabel) ∧
    (∀ e ∈ generateSnakeDraft players numTeams,
        e.2.length = (players.length + numTeams.toNat - 1) / numTeams.toNat) ∧
    (players.length ≤ ((players.length + numTeams.toNat - 1) / numTeams.toNat) *
        numTeams.toNat ∧
      ((players.length + numTeams.toNat - 1) / numTeams.toNat) * numTeams.toNat <
        players.length + numTeams.toNat) ∧
    (∀ i (hi : i < players.length),
        slotAt (generateSnakeDraft players numTeams)
          (if (i / numTeams.toNat) % 2 = 0 then i % numTeams.toNat
            else numTeams.toNat - 1 - i % numTeams.toNat) (i / numTeams.toNat) =
          some (players.get ⟨i, hi⟩)) ∧
    (((generateSnakeDraft players numTeams).map
        (fun e => e.2.countP (fun o => o.isSome))).sum = players.length) ∧
    (∀ (qs : List Player) (m : Int), qs = [] ∨ m ≤ 0 → generateSnakeDraft qs m = []) := by
  have hT2 : 0 < numTeams.toNat := by omega
  set T := numTeams.toNat with hTdef
  set L := players.length with hLdef
  set nR := (L + T - 1) / T with hnRdef
  have hL1 : 0 < L := List.length_pos.mpr hp
  have hnR : nR = (L - 1) / T + 1 := by
    have e : L + T - 1 = (L - 1) + T := by omega
    rw [hnRdef, e, Nat.add_div_right _ hT2]
  have hdm := Nat.div_add_mod (L - 1) T
  have hmlt := Nat.mod_lt (L - 1) hT2
  have hmul : nR * T = (L - 1) / T * T + T := by rw [hnR, Nat.succ_mul]
  have hcomm : (L - 1) / T * T = T * ((L - 1) / T) := Nat.mul_comm _ _
  have hpin1 : L ≤ nR * T := by omega
  have hpin2 : nR * T < L + T := by omega
  have heq := generateSnakeDraft_eq players numTeams hT hp
  refine ⟨?_, ?_, ⟨hpin1, hpin2⟩, ?_, ?_, ?_⟩
  · rw [heq, List.map_map]
    rfl
  · intro e he
    rw [heq, List.mem_map] at he
    obtain ⟨t, ht, rfl⟩ := he
    simp
  · intro i hi
    rw [heq]
    have hrange : i / T < nR := by
      have h1 : i / T ≤ (L - 1) / T := Nat.div_le_div_right (by omega)
      omega
    have htlt : teamIdxOf T i < T := teamIdxOf_lt hT2 i
    show slotAt _ (teamIdxOf T i) (i / T) = _
    rw [slotAt, getD_map_range _ ("", []) htlt]
    show ((List.range nR).map (fun r => snakeSlot players T r (teamIdxOf T i))).getD
      (i / T) none = _
    rw [getD_map_range _ none hrange, snakeSlot, if_pos htlt, slotIndex_of_divmod hT2 i,
      List.getElem?_eq_getElem hi]
    rfl
  · rw [heq, List.map_map]
    show ((List.range T).map (fun t => List.countP (fun o => o.isSome)
      ((List.range nR).map (fun r => snakeSlot players T r t)))).sum = L
    exact snake_count_total players T nR hT2 hpin1
  · intro qs m hqm
    rw [generateSnakeDraft, if_pos]
    rcases hqm with rfl | hm
    · left
      rfl
    · right
      exact hm

/-- Sample players used by the witnesses. -/
def samplePlayers : List Player :=
  [⟨1, "Tom Brady", "QB", false⟩, ⟨2, "AJ Green", "WR", true⟩,
   ⟨3, "Nick Chubb", "RB", false⟩]

theorem c1_snake_board_generator_witness :
    (0 : Int) < 2 ∧ samplePlayers ≠ [] ∧
      (generateSnakeDraft samplePlayers 2).map Prod.fst =
        (List.range (2 : Int).toNat).map teamLabel :=
  ⟨by decide, by decide,
    (c1_snake_board_generator samplePlayers 2 (by decide) (by decide)).1⟩

/-! ## Claim C2: renderer pick numbers match the generator -/

theorem overallPick_eq_slotIndex (T r t : Nat) :
    overallPick T r t = slotIndex T r t + 1 := by
  rw [overallPick, slotIndex, pickInRoundOf]

theorem getD_map_range_ge {α : Type} (f : Nat → α) {n i : Nat} (d : α) (h : n ≤ i) :
    ((List.range n).map f).getD i d = d := by
  rw [List.getD_eq_getElem?_getD, List.getElem?_eq_none (by simp [h])]
  rfl

/-- **C2**: the pick number computed independently by the board renderer
(`r*T + t + 1` on even rounds, `r*T + (T-1-t) + 1` on odd rounds) agrees with
the generator's placement: a non-empty slot `(r, t)` holds the player at that
1-based list position; distinct grid cells get distinct pick numbers; and each
pick number `1..L` is carried by exactly one non-empty grid cell. -/
theorem c2_pick_number_invariant (players : List Player) (numTeams : Int)
    (hT : 0 < numTeams) :
    (∀ r t, t < numTeams.toNat → ∀ p,
        slotAt (generateSnakeDraft players numTeams) t r = some p →
        players[(overallPick numTeams.toNat r t) - 1]? = some p) ∧
    (∀ r t r2 t2, t < numTeams.toNat → t2 < numTeams.toNat → (r, t) ≠ (r2, t2) →
        overallPick numTeams.toNat r t ≠ overallPick numTeams.toNat r2 t2) ∧
    (∀ n, 1 ≤ n → n ≤ players.length →
        ∃! rt : Nat × Nat,
          rt.1 < (players.length + numTeams.toNat - 1) / numTeams.toNat ∧
          rt.2 < numTeams.toNat ∧
          slotAt (generateSnakeDraft players numTeams) rt.2 rt.1 ≠ none ∧
          overallPick numTeams.toNat rt.1 rt.2 = n) := by
  have hT2 : 0 < numTeams.toNat := by omega
  set T := numTeams.toNat with hTdef
  refine ⟨?_, ?_, ?_⟩
  · intro r t ht p hslot
    by_cases hp : players = []
    · subst hp
      rw [generateSnakeDraft, if_pos (by left; rfl)] at hslot
      simp [slotAt] at hslot
    · rw [generateSnakeDraft_eq players numTeams hT hp] at hslot
      set L := players.length with hLdef
      set nR := (L + T - 1) / T with hnRdef
      by_cases hr : r < nR
      · rw [slotAt, getD_map_range _ ("", []) ht] at hslot
        have hslot2 : ((List.range nR).map (fun r => snakeSlot players T r t)).getD
            r none = some p := hslot
        rw [getD_map_range _ none hr, snakeSlot, if_pos ht] at hslot2
        rw [overallPick_eq_slotIndex]
        simpa using hslot2
      · rw [slotAt, getD_map_range _ ("", []) ht] at hslot
        have hslot2 : ((List.range nR).map (fun r => snakeSlot players T r t)).getD
            r none = some p := hslot
        rw [getD_map_range_ge _ none (by omega)] at hslot2
        cases hslot2
  · intro r t r2 t2 ht ht2 hne he
    rw [overallPick_eq_slotIndex, overallPick_eq_slotIndex] at he
    have hidx : slotIndex T r t = slotIndex T r2 t2 := by omega
    have hr : r = r2 := by
      have h1 := (slotIndex_divmod hT2 r ht).1
      have h2 := (slotIndex_divmod hT2 r2 ht2).1
      rw [← h1, ← h2, hidx]
    have htt : t = t2 := by
      have h1 := teamIdxOf_slotIndex hT2 r ht
      have h2 := teamIdxOf_slotIndex hT2 r2 ht2
      rw [← h1, ← h2, hidx]
    exact hne (by rw [hr, htt])
  · intro n hn1 hnL
    have hp : players ≠ [] := by
      intro he
      rw [he] at hnL
      simp at hnL
      omega
    set L := players.length with hLdef
    set nR := (L + T - 1) / T with hnRdef
    have hnR : nR = (L - 1) / T + 1 := by
      have e : L + T - 1 = (L - 1) + T := by omega
      rw [hnRdef, e, Nat.add_div_right _ hT2]
    set i := n - 1 with hidef
    have hiL : i < L := by omega
    have hrange : i / T < nR := by
      have h1 : i / T ≤ (L - 1) / T := Nat.div_le_div_right (by omega)
      omega
    have htlt : teamIdxOf T i < T := teamIdxOf_lt hT2 i
    have heq := generateSnakeDraft_eq players numTeams hT hp
    have hslot : slotAt (generateSnakeDraft players numTeams) (teamIdxOf T i) (i / T) =
        some players[i] := by
      rw [heq, slotAt, getD_map_range _ ("", []) htlt]
      show ((List.range nR).map (fun r => snakeSlot players T r (teamIdxOf T i))).getD
        (i / T) none = _
      rw [getD_map_range _ none hrange, snakeSlot, if_pos htlt,
        slotIndex_of_divmod hT2 i, List.getElem?_eq_getElem hiL]
    refine ⟨(i / T, teamIdxOf T i), ⟨hrange, htlt, ?_, ?_⟩, ?_⟩
    · rw [hslot]
      simp
    · rw [overallPick_eq_slotIndex, slotIndex_of_divmod hT2 i]
      omega
    · rintro ⟨r2, t2⟩ ⟨-, ht2, -, hpick⟩
      dsimp only at ht2 hpick
      rw [overallPick_eq_slotIndex] at hpick
      have hidx : slotIndex T r2 t2 = i := by omega
      have hr2 : r2 = i / T := by
        have h1 := (slotIndex_divmod hT2 r2 ht2).1
        rw [hidx] at h1
        exact h1.symm
      have ht2e : t2 = teamIdxOf T i := by
        have h1 := teamIdxOf_slotIndex hT2 r2 ht2
        rw [hidx] at h1
        exact h1.symm
      rw [Prod.mk.injEq]
      exact ⟨hr2, ht2e⟩

theorem c2_pick_number_invariant_witness :
    (0 : Int) < 2 ∧
      (∀ r t r2 t2, t < (2 : Int).toNat → t2 < (2 : Int).toNat → (r, t) ≠ (r2, t2) →
        overallPick (2 : Int).toNat r t ≠ overallPick (2 : Int).toNat r2 t2) :=
  ⟨by decide, (c2_pick_number_invariant samplePlayers 2 (by decide)).2.1⟩

/-! ## Claim C7: mark-until-picked -/

theorem mem_markUntil_foldl : ∀ (ps : List Player) (r : Int) (init : Finset Int)
    (x : Int),
    x ∈ ps.foldl (fun s p => if p.rank ≤ r then insert p.rank s else s) init ↔
      x ∈ init ∨ ∃ p ∈ ps, p.rank = x ∧ p.rank ≤ r := by
  intro ps
  induction ps with
  | nil => simp
  | cons q qs ih =>
    intro r init x
    rw [List.foldl_cons]
    by_cases hq : q.rank ≤ r
    · rw [if_pos hq, ih]
      simp only [Finset.mem_insert, List.mem_cons]
      constructor
      · rintro ((rfl | hx) | ⟨p, hp, he, hle⟩)
        · exact Or.inr ⟨q, Or.inl rfl, rfl, hq⟩
        · exact Or.inl hx
        · exact Or.inr ⟨p, Or.inr hp, he, hle⟩
      · rintro (hx | ⟨p, (rfl | hp), he, hle⟩)
        · exact Or.inl (Or.inr hx)
        · exact Or.inl (Or.inl he.symm)
        · exact Or.inr ⟨p, hp, he, hle⟩
    · rw [if_neg hq, ih]
      simp only [List.mem_cons]
      constructor
      · rintro (hx | ⟨p, hp, he, hle⟩)
        · exact Or.inl hx
        · exact Or.inr ⟨p, Or.inr hp, he, hle⟩
      · rintro (hx | ⟨p, (rfl | hp), he, hle⟩)
        · exact Or.inl hx
        · exact absurd hle hq
        · exact Or.inr ⟨p, hp, he, hle⟩

/-- **C7**: mark-until-picked replaces the entire picked set — the result does
not depend on the previous picked set — with exactly the ranks of current
players whose rank is at most the given rank; on the seven-rank example list,
mark-until-picked(5) yields exactly `{1,2,3,4,5}`. -/
theorem c7_mark_until_picked (s : AppState) (r : Int) :
    (∀ prev : Finset Int,
        (applyMarkUntil { s with pickedPlayers := prev } r).pickedPlayers =
          handleMarkUntilPicked (playersOf s) r) ∧
    (∀ x : Int, x ∈ (applyMarkUntil s r).pickedPlayers ↔
        ∃ p ∈ playersOf s, p.rank = x ∧ p.rank ≤ r) ∧
    handleMarkUntilPicked
        [⟨1, "a", "QB", false⟩, ⟨2, "b", "QB", false⟩, ⟨3, "c", "QB", false⟩,
         ⟨4, "d", "QB", false⟩, ⟨5, "e", "QB", false⟩, ⟨6, "f", "QB", false⟩,
         ⟨7, "g", "QB", false⟩] 5 = {1, 2, 3, 4, 5} := by
  refine ⟨fun prev => rfl, ?_, by decide⟩
  intro x
  show x ∈ handleMarkUntilPicked (playersOf s) r ↔ _
  rw [handleMarkUntilPicked, mem_markUntil_foldl]
  simp

/-! ## Claim C8: toggle-picked -/

/-- **C8 counterexample**: rank 5 is not the rank of any player parsed from
`"1 Tom QB"`, yet toggling it on an empty picked set changes the picked set
(it inserts 5), so toggle-picked is not a no-op for absent ranks. -/
theorem c8_toggle_picked_counterexample :
    (¬ ∃ p ∈ playersOf ⟨"1 Tom QB", 2, ∅⟩, p.rank = 5) ∧
      (applyTogglePicked ⟨"1 Tom QB", 2, ∅⟩ 5).pickedPlayers ≠
        (⟨"1 Tom QB", 2, ∅⟩ : AppState).pickedPlayers := by
  exact ⟨by decide, by decide⟩

/-- **C8 amended**: toggle-picked flips membership of the rank in the picked
set regardless of whether the rank occurs in the current player list — the
new picked set is the symmetric difference with `{rank}`; so membership of
the toggled rank is inverted and all other ranks are untouched. -/
theorem c8_toggle_picked_flips (s : AppState) (r : Int) :
    (applyTogglePicked s r).pickedPlayers = symmDiff s.pickedPlayers {r} ∧
    (r ∈ (applyTogglePicked s r).pickedPlayers ↔ r ∉ s.pickedPlayers) ∧
    (∀ x : Int, x ≠ r →
      (x ∈ (applyTogglePicked s r).pickedPlayers ↔ x ∈ s.pickedPlayers)) := by
  have hmain : (applyTogglePicked s r).pickedPlayers = symmDiff s.pickedPlayers {r} := by
    show handleTogglePlayerPicked s.pickedPlayers r = _
    rw [handleTogglePlayerPicked]
    apply Finset.ext
    intro x
    by_cases hr : r ∈ s.pickedPlayers
    · rw [if_pos hr]
      simp only [Finset.mem_erase, Finset.mem_symmDiff, Finset.mem_singleton]
      constructor
      · rintro ⟨hne, hx⟩
        exact Or.inl ⟨hx, hne⟩
      · rintro (⟨hx, hne⟩ | ⟨rfl, hnx⟩)
        · exact ⟨hne, hx⟩
        · exact absurd hr hnx
    · rw [if_neg hr]
      simp only [Finset.mem_insert, Finset.mem_symmDiff, Finset.mem_singleton]
      constructor
      · rintro (rfl | hx)
        · exact Or.inr ⟨rfl, hr⟩
        · exact Or.inl ⟨hx, fun he => hr (he ▸ hx)⟩
      · rintro (⟨hx, hne⟩ | ⟨rfl, hnx⟩)
        · exact Or.inr hx
        · exact Or.inl rfl
  refine ⟨hmain, ?_, ?_⟩
  · rw [hmain, Finset.mem_symmDiff]
    simp
  · intro x hx
    rw [hmain, Finset.mem_symmDiff]
    simp only [Finset.mem_singleton]
    constructor
    · rintro (⟨h1, -⟩ | ⟨h1, -⟩)
      · exact h1
      · exact absurd h1 hx
    · intro h1
      exact Or.inl ⟨h1, hx⟩

/-! ## Claim C4: parse failure and derived state -/

theorem intercalate_cons_ne_nil {α : Type} (sep : List α) {a : List α}
    (t : List (List α)) (ha : a ≠ []) : List.intercalate sep (a :: t) ≠ [] := by
  cases t with
  | nil =>
    simp only [List.intercalate, List.intersperse, List.flatten]
    simpa using ha
  | cons b t2 =>
    rw [intercalate_cons2]
    simp [ha]

theorem playerListIdentifier_cons_ne_empty (q : Player) (qs : List Player) :
    playerListIdentifier (q :: qs) ≠ "" := by
  rw [playerListIdentifier, List.map_cons, joinComma]
  intro he
  rw [str_empty_iff, strData_mk, List.map_cons] at he
  have hne : (intDecString q.rank ++ "|" ++ q.name).data ≠ [] := by
    rw [String.data_append, String.data_append]
    intro h2
    simp only [List.append_eq_nil] at h2
    exact intDecString_ne_empty q.rank (str_empty_iff.mpr h2.1.1)
  exact intercalate_cons_ne_nil [','] _ hne he

/-- **C4 counterexample**: starting from a good state with a non-empty picked
set, replacing the raw text with unparseable text clears the picked set and
empties the derived board instead of leaving them untouched. -/
theorem c4_parse_failure_counterexample :
    (parsePlayerText "xyz").error.isSome = true ∧
    playersOf ⟨"1 Tom Brady QB\n2 AJ Green WR", 2, {1}⟩ ≠ [] ∧
    (applyRawTextChange ⟨"1 Tom Brady QB\n2 AJ Green WR", 2, {1}⟩ "xyz").pickedPlayers ≠
      (⟨"1 Tom Brady QB\n2 AJ Green WR", 2, {1}⟩ : AppState).pickedPlayers ∧
    draftDataOf (applyRawTextChange ⟨"1 Tom Brady QB\n2 AJ Green WR", 2, {1}⟩ "xyz") = [] ∧
    draftDataOf ⟨"1 Tom Brady QB\n2 AJ Green WR", 2, {1}⟩ ≠ [] := by
  exact ⟨by decide, by decide, by decide, by decide, by decide⟩

/-- **C4 amended**: from a state whose text parses to a non-empty player
list, a raw-text change to text that fails to parse surfaces the parse error,
but the derived board becomes the empty mapping (not the last-good board) and
the picked set is reset to empty (the list identifier becomes empty, which
fires the reset effect). -/
theorem c4_parse_failure_state (s : AppState) (newText : String) (e : String)
    (he : (parsePlayerText newText).error = some e) (hp : playersOf s ≠ []) :
    errorOf (applyRawTextChange s newText) = some e ∧
    draftDataOf (applyRawTextChange s newText) = [] ∧
    (applyRawTextChange s newText).pickedPlayers = ∅ := by
  have hplayers : (parsePlayerText newText).players = [] :=
    parseLines_players_nil_of_error (by
      show (parsePlayerText newText).error ≠ none
      rw [he]
      simp)
  refine ⟨he, ?_, ?_⟩
  · have hp2 : playersOf (applyRawTextChange s newText) = [] := hplayers
    rw [draftDataOf, hp2]
    simp
  · show (if identifierOfText newText = identifierOfText s.rawText
        then s.pickedPlayers else ∅) = ∅
    rw [if_neg]
    intro heq
    have h1 : identifierOfText newText = "" := by
      rw [identifierOfText, hplayers]
      rfl
    rw [h1] at heq
    revert heq
    cases hps : (parsePlayerText s.rawText).players with
    | nil => exact absurd hps hp
    | cons q qs =>
      rw [identifierOfText, hps]
      intro heq
      exact playerListIdentifier_cons_ne_empty q qs heq.symm

theorem c4_parse_failure_state_witness :
    (parsePlayerText "xyz").error = some (malformedMsg "xyz") ∧
    playersOf ⟨"1 Tom Brady QB\n2 AJ Green WR", 2, {1}⟩ ≠ [] ∧
    errorOf (applyRawTextChange ⟨"1 Tom Brady QB\n2 AJ Green WR", 2, {1}⟩ "xyz") =
      some (malformedMsg "xyz") :=
  ⟨by decide, by decide,
    (c4_parse_failure_state ⟨"1 Tom Brady QB\n2 AJ Green WR", 2, {1}⟩ "xyz"
      (malformedMsg "xyz") (by decide) (by decide)).1⟩

/-! ## Claim C5: malformed lines reject the whole input -/

/-- The trimmed, marker-stripped content of a line, as the parser computes it. -/
def processedOf (line : String) : String :=
  if endsStar (jsTrim line) then jsTrim ⟨(jsTrim line).data.dropLast⟩ else jsTrim line

theorem strippedParts_eq (line : String) :
    strippedParts line = splitWsRuns (processedOf line) := rfl

theorem processedOf_trim (line : String) : ∃ X, (processedOf line).data = trimChars X := by
  rw [processedOf]
  split
  · exact ⟨(jsTrim line).data.dropLast, rfl⟩
  · exact ⟨line.data, rfl⟩

theorem strippedParts_tokens_ne {line : String}
    (hlen : 3 ≤ (strippedParts line).length) :
    ∀ tok ∈ strippedParts line, tok ≠ "" := by
  obtain ⟨X, hX⟩ := processedOf_trim line
  have hne : (processedOf line).data ≠ [] := by
    intro hnil
    have he : strippedParts line = [""] := by
      rw [strippedParts_eq, splitWsRuns, hnil]
      rfl
    rw [he] at hlen
    simp at hlen
  have hh : ∀ x, (processedOf line).data.head? = some x → isWs x = false := by
    rw [hX]
    exact fun x hx => trimChars_head_not_ws hx
  have hl : ∀ x, (processedOf line).data.getLast? = some x → isWs x = false := by
    rw [hX]
    exact fun x hx => trimChars_last_not_ws hx
  intro tok htok
  exact splitWsRuns_tokens_ne_empty hh hl hne tok (by rwa [strippedParts_eq] at htok)

theorem getLastD_mem {α : Type} : ∀ (l : List α) (d : α), l ≠ [] → l.getLastD d ∈ l
  | [], _, h => absurd rfl h
  | [a], d, _ => by simp
  | a :: b :: t, d, _ => by
    rw [List.getLastD_cons]
    exact List.mem_cons_of_mem a (getLastD_mem (b :: t) a (by simp))

theorem strippedParts_name_pos_ne {line : String}
    (hlen : 3 ≤ (strippedParts line).length) :
    joinSpace ((strippedParts line).drop 1).dropLast ≠ "" ∧
      (strippedParts line).getLastD "" ≠ "" := by
  have htok := strippedParts_tokens_ne hlen
  constructor
  · have hmidlen : 1 ≤ (((strippedParts line).drop 1).dropLast).length := by
      rw [List.length_dropLast, List.length_drop]
      omega
    obtain ⟨m, rest, hm⟩ : ∃ m rest, ((strippedParts line).drop 1).dropLast = m :: rest := by
      cases hcase : ((strippedParts line).drop 1).dropLast with
      | nil => rw [hcase] at hmidlen; simp at hmidlen
      | cons m rest => exact ⟨m, rest, rfl⟩
    have hmmem : m ∈ strippedParts line := by
      have h1 : m ∈ ((strippedParts line).drop 1).dropLast := by
        rw [hm]
        exact List.mem_cons_self m rest
      have h2 := (List.dropLast_sublist ((strippedParts line).drop 1)).mem h1
      exact (List.drop_sublist 1 (strippedParts line)).mem h2
    have hmne : m ≠ "" := htok m hmmem
    rw [hm, joinSpace]
    intro he
    rw [str_empty_iff, strData_mk] at he
    refine intercalate_cons_ne_nil [' '] _ ?_ he
    intro h0
    exact hmne (str_empty_iff.mpr h0)
  · have hplen : strippedParts line ≠ [] := by
      intro h
      rw [h] at hlen
      simp at hlen
    exact htok _ (getLastD_mem _ "" hplen)

theorem parseOneLine_eq_bad_malformed {line : String} (hb : jsTrim line ≠ "")
    (h2 : (strippedParts line).length < 3) :
    parseOneLine line = .bad (malformedMsg line) := by
  rw [parseOneLine, if_neg hb]
  have h2e := h2
  simp only [strippedParts] at h2e
  rw [if_pos h2e]

theorem parseOneLine_eq_bad_rank {line : String} (hb : jsTrim line ≠ "")
    (h2 : ¬(strippedParts line).length < 3)
    (h3 : jsParseInt ((strippedParts line).headD "") = none) :
    parseOneLine line = .bad (badParseMsg line) := by
  rw [parseOneLine, if_neg hb]
  have h2e := h2
  simp only [strippedParts] at h2e
  rw [if_neg h2e]
  have h3e := h3
  simp only [strippedParts] at h3e
  rw [h3e]

theorem parseOneLine_eq_ok {line : String} (hb : jsTrim line ≠ "")
    (h2 : ¬(strippedParts line).length < 3) {rank : Int}
    (h3 : jsParseInt ((strippedParts line).headD "") = some rank) :
    parseOneLine line =
      .ok ⟨rank, joinSpace ((strippedParts line).drop 1).dropLast,
        (strippedParts line).getLastD "", endsStar (jsTrim line)⟩ := by
  have hnp := @strippedParts_name_pos_ne line (by omega)
  rw [parseOneLine, if_neg hb]
  have h2e := h2
  simp only [strippedParts] at h2e
  rw [if_neg h2e]
  have h3e := h3
  simp only [strippedParts] at h3e
  rw [h3e]
  simp only []
  rw [if_neg]
  · rfl
  · rintro (h | h)
    · exact hnp.1 h
    · exact hnp.2 h

theorem parseOneLine_blank_iff (line : String) :
    parseOneLine line = .blank ↔ jsTrim line = "" := by
  constructor
  · intro h
    by_contra hne
    by_cases h2 : (strippedParts line).length < 3
    · rw [parseOneLine_eq_bad_malformed hne h2] at h
      cases h
    · cases h3 : jsParseInt ((strippedParts line).headD "") with
      | none =>
        rw [parseOneLine_eq_bad_rank hne h2 h3] at h
        cases h
      | some rank =>
        rw [parseOneLine_eq_ok hne h2 h3] at h
        cases h
  · intro h
    rw [parseOneLine, if_pos h]

theorem lineMalformed_iff (line : String) :
    lineMalformed line = true ↔
      (jsTrim line ≠ "" ∧ ((strippedParts line).length < 3 ∨
        jsParseInt ((strippedParts line).headD "") = none)) := by
  rw [lineMalformed]
  simp [Option.isNone_iff_eq_none]

theorem containsSub_malformedMsg (line : String) : containsSub (malformedMsg line) line :=
  ⟨"Malformed line detected. Each line must have rank, name, and position. Problem line: \"",
    "\"", rfl⟩

theorem containsSub_badParseMsg (line : String) : containsSub (badParseMsg line) line :=
  ⟨"Could not parse line. Check format. Problem line: \"", "\"", rfl⟩

theorem parseOneLine_bad_analysis {line : String} {m : String}
    (h : parseOneLine line = .bad m) :
    lineMalformed line = true ∧ containsSub m line := by
  have hb : jsTrim line ≠ "" := by
    intro he
    rw [(parseOneLine_blank_iff line).mpr he] at h
    cases h
  by_cases h2 : (strippedParts line).length < 3
  · rw [parseOneLine_eq_bad_malformed hb h2] at h
    cases h
    exact ⟨(lineMalformed_iff line).mpr ⟨hb, Or.inl h2⟩, containsSub_malformedMsg line⟩
  · cases h3 : jsParseInt ((strippedParts line).headD "") with
    | none =>
      rw [parseOneLine_eq_bad_rank hb h2 h3] at h
      cases h
      exact ⟨(lineMalformed_iff line).mpr ⟨hb, Or.inr h3⟩, containsSub_badParseMsg line⟩
    | some rank =>
      rw [parseOneLine_eq_ok hb h2 h3] at h
      cases h

theorem parseOneLine_ok_not_malformed {line : String} {p : Player}
    (h : parseOneLine line = .ok p) : lineMalformed line = false := by
  have hb : jsTrim line ≠ "" := by
    intro he
    rw [(parseOneLine_blank_iff line).mpr he] at h
    cases h
  by_cases h2 : (strippedParts line).length < 3
  · rw [parseOneLine_eq_bad_malformed hb h2] at h
    cases h
  · cases h3 : jsParseInt ((strippedParts line).headD "") with
    | none =>
      rw [parseOneLine_eq_bad_rank hb h2 h3] at h
      cases h
    | some rank =>
      cases hm : lineMalformed line
      · rfl
      · rw [lineMalformed_iff] at hm
        rcases hm.2 with hlen | hrank
        · exact absurd hlen h2
        · rw [h3] at hrank
          cases hrank

theorem parseLines_malformed : ∀ (ls : List String) (acc : List Player),
    (∃ l ∈ ls, lineMalformed l = true) →
    (parseLines ls acc).players = [] ∧
    ∃ e, (parseLines ls acc).error = some e ∧
      ∃ l ∈ ls, lineMalformed l = true ∧ containsSub e l := by
  intro ls
  induction ls with
  | nil => intro acc h; simp at h
  | cons a rest ih =>
    intro acc h
    cases ha : parseOneLine a with
    | blank =>
      have hblank : jsTrim a = "" := (parseOneLine_blank_iff a).mp ha
      have hrest : ∃ l ∈ rest, lineMalformed l = true := by
        rcases h with ⟨l, hl, hm⟩
        rw [List.mem_cons] at hl
        rcases hl with rfl | hl
        · rw [lineMalformed_iff] at hm
          exact absurd hblank hm.1
        · exact ⟨l, hl, hm⟩
      obtain ⟨hpl, e, herr, l, hl, hm, hsub⟩ := ih acc hrest
      refine ⟨?_, e, ?_, l, List.mem_cons_of_mem a hl, hm, hsub⟩
      · simp only [parseLines, ha]
        exact hpl
      · simp only [parseLines, ha]
        exact herr
    | bad m =>
      obtain ⟨hm, hsub⟩ := parseOneLine_bad_analysis ha
      refine ⟨?_, m, ?_, a, List.mem_cons_self a rest, hm, hsub⟩
      · simp only [parseLines, ha]
      · simp only [parseLines, ha]
    | ok p =>
      have hnm := parseOneLine_ok_not_malformed ha
      have hrest : ∃ l ∈ rest, lineMalformed l = true := by
        rcases h with ⟨l, hl, hml⟩
        rw [List.mem_cons] at hl
        rcases hl with rfl | hl
        · rw [hnm] at hml
          cases hml
        · exact ⟨l, hl, hml⟩
      obtain ⟨hpl, e, herr, l, hl, hml, hsub⟩ := ih (acc ++ [p]) hrest
      refine ⟨?_, e, ?_, l, List.mem_cons_of_mem a hl, hml, hsub⟩
      · simp only [parseLines, ha]
        exact hpl
      · simp only [parseLines, ha]
        exact herr

/-- **C5**: whenever some line of the input (as the parser splits it) is
malformed — fewer than 3 whitespace-separated tokens after stripping a
trailing `*`, or an unparseable rank — the parser returns exactly zero
players together with an error message containing a malformed line verbatim,
regardless of how many earlier lines parsed successfully. -/
theorem c5_parser_rejects_malformed (text : String)
    (h : ∃ l ∈ jsSplitNl (jsTrim text), lineMalformed l = true) :
    (parsePlayerText text).players = [] ∧
    ∃ e, (parsePlayerText text).error = some e ∧
      ∃ l ∈ jsSplitNl (jsTrim text), lineMalformed l = true ∧ containsSub e l :=
  parseLines_malformed (jsSplitNl (jsTrim text)) [] h

theorem c5_parser_rejects_malformed_witness :
    (∃ l ∈ jsSplitNl (jsTrim "1 Tom Brady QB\nbad"), lineMalformed l = true) ∧
      (parsePlayerText "1 Tom Brady QB\nbad").players = [] :=
  ⟨by decide, (c5_parser_rejects_malformed "1 Tom Brady QB\nbad" (by decide)).1⟩

/-! ## Claim C6: rank parsing on well-tokenised lines -/

/-- **C6 counterexample**: the first token `1x` of `"1x Tom QB"` is not a
valid integer, yet parsing succeeds — JavaScript `parseInt` accepts the
numeric prefix — producing a player with rank 1 instead of failing. -/
theorem c6_invalid_rank_counterexample :
    isValidIntegerString "1x" = false ∧
    (strippedParts "1x Tom QB").headD "" = "1x" ∧
    parsePlayerText "1x Tom QB" = ⟨[⟨1, "Tom", "QB", false⟩], none⟩ :=
  ⟨by decide, by decide, by decide⟩

/-- **C6 amended**: for every non-blank line with at least 3 tokens after
stripping a trailing `*`, the parser fails with an error if and only if
`parseInt` on the first token yields no number — i.e. the token does not
start with an optionally-signed digit; a first token with a numeric prefix
followed by other characters is accepted with the prefix as rank. -/
theorem c6_rank_parse_failure (line : String) (hb : jsTrim line ≠ "")
    (h2 : ¬(strippedParts line).length < 3) :
    (∃ m, parseOneLine line = .bad m) ↔
      jsParseInt ((strippedParts line).headD "") = none := by
  constructor
  · rintro ⟨m, hm⟩
    cases h3 : jsParseInt ((strippedParts line).headD "") with
    | none => rfl
    | some rank =>
      rw [parseOneLine_eq_ok hb h2 h3] at hm
      cases hm
  · intro h3
    exact ⟨badParseMsg line, parseOneLine_eq_bad_rank hb h2 h3⟩

theorem c6_rank_parse_failure_witness :
    jsTrim "x Tom QB" ≠ "" ∧ ¬(strippedParts "x Tom QB").length < 3 ∧
      (∃ m, parseOneLine "x Tom QB" = .bad m) :=
  ⟨by decide, by decide,
    (c6_rank_parse_failure "x Tom QB" (by decide) (by decide)).mpr (by decide)⟩

/-! ## Claim C9: helpers for the render / parse round trip -/

theorem intercalate_single {α : Type} (sep : List α) (a : List α) :
    List.intercalate sep [a] = a := by
  simp [List.intercalate, List.intersperse]

theorem intercalate_append_ne {α : Type} (sep : List α) :
    ∀ (bs cs : List (List α)), bs ≠ [] → cs ≠ [] →
    List.intercalate sep (bs ++ cs) =
      List.intercalate sep bs ++ sep ++ List.intercalate sep cs := by
  intro bs
  induction bs with
  | nil => intro cs h _; exact absurd rfl h
  | cons b bs ih =>
    intro cs _ hcs
    cases bs with
    | nil =>
      cases cs with
      | nil => exact absurd rfl hcs
      | cons c t =>
        rw [show ([b] ++ c :: t) = b :: c :: t from rfl, intercalate_cons2,
          intercalate_single]
    | cons b2 bs2 =>
      rw [show ((b :: b2 :: bs2) ++ cs) = b :: (b2 :: (bs2 ++ cs)) from rfl,
        intercalate_cons2]
      have hx : b2 :: (bs2 ++ cs) = (b2 :: bs2) ++ cs := rfl
      rw [hx, ih cs (by simp) hcs, intercalate_cons2]
      simp [List.append_assoc]

theorem mem_intercalate {α : Type} {sep : List α} {c : α} :
    ∀ {css : List (List α)}, c ∈ List.intercalate sep css →
      c ∈ sep ∨ ∃ cs ∈ css, c ∈ cs := by
  intro css
  induction css with
  | nil =>
    intro h
    simp [List.intercalate, List.intersperse] at h
  | cons a t ih =>
    intro h
    cases t with
    | nil =>
      rw [intercalate_single] at h
      exact Or.inr ⟨a, List.mem_cons_self a [], h⟩
    | cons b t2 =>
      rw [intercalate_cons2, List.mem_append, List.mem_append] at h
      rcases h with (ha | hsep) | hrest
      · exact Or.inr ⟨a, List.mem_cons_self _ _, ha⟩
      · exact Or.inl hsep
      · rcases ih hrest with hs | ⟨cs, hcs, hc⟩
        · exact Or.inl hs
        · exact Or.inr ⟨cs, List.mem_cons_of_mem a hcs, hc⟩

theorem intercalate_getLast? {sep : List Char} (hsep : sep ≠ []) :
    ∀ (css : List (List Char)) (b : List Char), b ≠ [] →
    (List.intercalate sep (css ++ [b])).getLast? = b.getLast? := by
  intro css
  induction css with
  | nil =>
    intro b hb
    rw [List.nil_append, intercalate_single]
  | cons a t ih =>
    intro b hb
    have hne : List.intercalate sep (t ++ [b]) ≠ [] := by
      cases t with
      | nil =>
        rw [List.nil_append, intercalate_single]
        exact hb
      | cons x t2 =>
        rw [show ((x :: t2) ++ [b]) = x :: (t2 ++ [b]) from rfl]
        obtain ⟨c, t3, hct⟩ : ∃ c t3, t2 ++ [b] = c :: t3 := by
          cases hcase : t2 ++ [b] with
          | nil => simp at hcase
          | cons c t3 => exact ⟨c, t3, rfl⟩
        rw [hct, intercalate_cons2]
        intro hz
        simp only [List.append_eq_nil] at hz
        exact hsep hz.1.2
    rw [show ((a :: t) ++ [b]) = a :: (t ++ [b]) from rfl]
    obtain ⟨c, t3, hct⟩ : ∃ c t3, t ++ [b] = c :: t3 := by
      cases hcase : t ++ [b] with
      | nil => simp at hcase
      | cons c t3 => exact ⟨c, t3, rfl⟩
    rw [hct, intercalate_cons2, ← hct, List.getLast?_append_of_ne_nil _ hne, ih b hb]

theorem wsSplitAux_ne_nil : ∀ (cs : List Char) (m : Bool) (acc : List Char),
    wsSplitAux m cs acc ≠ []
  | [], m, acc => by cases m <;> simp [wsSplitAux]
  | c :: cs, m, acc => by
    by_cases hc : isWs c = true
    · cases m
      · rw [wsSplitAux_cons_ws_false hc]
        simp
      · rw [wsSplitAux_cons_ws_true hc]
        exact wsSplitAux_ne_nil cs true acc
    · have hc2 : isWs c = false := by
        cases h : isWs c
        · rfl
        · exact absurd h hc
      rw [wsSplitAux_cons_nonws hc2]
      exact wsSplitAux_ne_nil cs false (c :: acc)

theorem splitWsRuns_ne_nil (s : String) : splitWsRuns s ≠ [] := by
  rw [splitWsRuns]
  intro h
  rw [List.map_eq_nil_iff] at h
  exact wsSplitAux_ne_nil s.data false [] h

theorem isToken_iff {s : String} :
    isToken s = true ↔ s.data ≠ [] ∧ ∀ c ∈ s.data, isWs c = false := by
  rw [isToken]
  simp [List.all_eq_true]

theorem nameWellFormed_iff {s : String} :
    nameWellFormed s = true ↔
      (∀ t ∈ splitWsRuns s, isToken t = true) ∧ joinSpace (splitWsRuns s) = s := by
  rw [nameWellFormed]
  simp [List.all_eq_true]

theorem playerWellFormedStrong_iff {p : Player} :
    playerWellFormedStrong p = true ↔
      0 < p.rank ∧ nameWellFormed p.name = true ∧
        p.name.data.getLast? ≠ some '*' ∧ isToken p.position = true ∧
        p.position.data.getLast? ≠ some '*' := by
  rw [playerWellFormedStrong, playerWellFormed]
  simp [and_assoc]

theorem endsStar_false_iff {s : String} :
    endsStar s = false ↔ s.data.getLast? ≠ some '*' := by
  rw [endsStar]
  simp

theorem endsStar_true_iff {s : String} :
    endsStar s = true ↔ s.data.getLast? = some '*' := by
  rw [endsStar]
  simp

theorem parseOneLine_of_parts {line R nm pos : String} {toks : List String}
    (hb : jsTrim line ≠ "")
    (hparts : strippedParts line = R :: toks ++ [pos])
    (htoks : toks ≠ [])
    (hjoin : joinSpace toks = nm)
    {rank : Int} (hR : jsParseInt R = some rank)
    {hl : Bool} (hstar : endsStar (jsTrim line) = hl) :
    parseOneLine line = .ok ⟨rank, nm, pos, hl⟩ := by
  have hlen : 1 ≤ toks.length := List.length_pos.mpr htoks
  have h2 : ¬(strippedParts line).length < 3 := by
    rw [hparts, List.length_append, List.length_cons]
    simp only [List.length_cons, List.length_nil]
    omega
  have h3 : jsParseInt ((strippedParts line).headD "") = some rank := by
    rw [hparts]
    exact hR
  rw [parseOneLine_eq_ok hb h2 h3]
  have hname : joinSpace ((strippedParts line).drop 1).dropLast = nm := by
    rw [hparts]
    show joinSpace (toks ++ [pos]).dropLast = nm
    rw [List.dropLast_concat]
    exact hjoin
  have hpos : (strippedParts line).getLastD "" = pos := by
    rw [hparts, List.getLastD_concat]
  rw [hname, hpos, hstar]

theorem mem_of_getLast?_eq {α : Type} {l : List α} {x : α} (h : l.getLast? = some x) :
    x ∈ l := by
  rw [List.getLast?_eq_head?_reverse] at h
  have := List.mem_of_mem_head? h
  rwa [List.mem_reverse] at this

theorem renderPlayer_facts {p : Player} (hwf : playerWellFormedStrong p = true) :
    parseOneLine (renderPlayer p) = .ok p ∧
    jsTrim (renderPlayer p) = renderPlayer p ∧
    (renderPlayer p).data ≠ [] ∧
    (∀ x, (renderPlayer p).data.head? = some x → isWs x = false) ∧
    (∀ x, (renderPlayer p).data.getLast? = some x → isWs x = false) ∧
    (∀ c ∈ (renderPlayer p).data, c ≠ '\n') := by
  obtain ⟨hrank, hnamewf, hnameStar, hposTok, hposStar⟩ := playerWellFormedStrong_iff.mp hwf
  obtain ⟨htoks, hjoin⟩ := nameWellFormed_iff.mp hnamewf
  obtain ⟨hposne, hposws⟩ := isToken_iff.mp hposTok
  have hRdata : (intDecString p.rank).data = natDigits p.rank.toNat := by
    rw [intDecString_of_nonneg (by omega)]
  have hRne : (intDecString p.rank).data ≠ [] := by
    rw [hRdata]
    exact natDigits_ne_nil _
  have hRws : ∀ c ∈ (intDecString p.rank).data, isWs c = false := by
    rw [hRdata]
    exact fun c hc => digit_not_ws (natDigits_all_digit _ c hc)
  have hRparse : jsParseInt (intDecString p.rank) = some p.rank :=
    jsParseInt_intDecString_of_nonneg (by omega)
  have htoksne : splitWsRuns p.name ≠ [] := splitWsRuns_ne_nil p.name
  have htoksDne : (splitWsRuns p.name).map String.data ≠ [] := by
    simp only [ne_eq, List.map_eq_nil_iff]
    exact htoksne
  have hnamedata : p.name.data =
      List.intercalate [' '] ((splitWsRuns p.name).map String.data) := by
    conv_lhs => rw [← hjoin]
    rfl
  set base := intDecString p.rank ++ " " ++ p.name ++ " " ++ p.position with hbasedef
  have hbase : base.data = List.intercalate [' ']
      (((intDecString p.rank).data :: (splitWsRuns p.name).map String.data) ++
        [p.position.data]) := by
    rw [intercalate_append_ne [' '] _ _ (by simp) (by simp),
      show (intDecString p.rank).data :: (splitWsRuns p.name).map String.data =
        [(intDecString p.rank).data] ++ (splitWsRuns p.name).map String.data from rfl,
      intercalate_append_ne [' '] _ _ (by simp) htoksDne,
      intercalate_single, intercalate_single, ← hnamedata, hbasedef]
    simp [String.data_append, List.append_assoc]
  have hcss : ((intDecString p.rank).data :: (splitWsRuns p.name).map String.data) ++
      [p.position.data] =
      (intDecString p.rank).data ::
        ((splitWsRuns p.name).map String.data ++ [p.position.data]) := rfl
  have hbasene : base.data ≠ [] := by
    rw [hbase, hcss]
    exact intercalate_cons_ne_nil [' '] _ hRne
  have hbasehead : ∀ x, base.data.head? = some x → isWs x = false := by
    intro x hx
    rw [hbase, hcss, intercalate_head? ' ' _ hRne] at hx
    exact hRws x (List.mem_of_mem_head? hx)
  have hbaselast : base.data.getLast? = p.position.data.getLast? := by
    rw [hbase]
    exact intercalate_getLast? (by simp) _ _ hposne
  have hbaselast_ws : ∀ x, base.data.getLast? = some x → isWs x = false := by
    intro x hx
    rw [hbaselast] at hx
    exact hposws x (mem_of_getLast?_eq hx)
  have htrimbase : jsTrim base = base :=
    String.ext (trimChars_eq_self hbasehead hbaselast_ws)
  have hvalid : ∀ cs ∈ ((intDecString p.rank).data ::
      (splitWsRuns p.name).map String.data) ++ [p.position.data],
      cs ≠ [] ∧ ∀ c ∈ cs, isWs c = false := by
    intro cs hcs
    rw [List.mem_append, List.mem_cons] at hcs
    rcases hcs with (rfl | hcs) | hcs
    · exact ⟨hRne, hRws⟩
    · rw [List.mem_map] at hcs
      obtain ⟨t, ht, rfl⟩ := hcs
      exact isToken_iff.mp (htoks t ht)
    · rw [List.mem_singleton] at hcs
      subst hcs
      exact ⟨hposne, hposws⟩
  have hmkdata : List.map (String.mk ∘ String.data) (splitWsRuns p.name) =
      splitWsRuns p.name := by
    have he : (String.mk ∘ String.data) = id := funext (fun s => strMk_data s)
    rw [he, List.map_id]
  have hsplitbase : splitWsRuns base =
      (intDecString p.rank :: splitWsRuns p.name) ++ [p.position] := by
    rw [splitWsRuns, hbase, wsSplitAux_intercalate _ (by simp) hvalid, List.map_append,
      List.map_cons, List.map_map, hmkdata]
    simp [strMk_data]
  have hbasenl : ∀ c ∈ base.data, c ≠ '\n' := by
    intro c hc
    rw [hbase] at hc
    rcases mem_intercalate hc with hsep | ⟨cs, hcs, hcmem⟩
    · rw [List.mem_singleton] at hsep
      subst hsep
      decide
    · have hnws := (hvalid cs hcs).2 c hcmem
      intro he
      subst he
      rw [show isWs '\n' = true from by decide] at hnws
      cases hnws
  cases hhl : p.isHighlighted with
  | false =>
    have hline : renderPlayer p = base := by
      rw [renderPlayer, hhl, if_neg (by simp), String.append_empty, hbasedef]
    have hb : jsTrim base ≠ "" := by
      rw [htrimbase]
      intro he
      exact hbasene (str_empty_iff.mp he)
    have hstar : endsStar (jsTrim base) = false := by
      rw [htrimbase, endsStar_false_iff, hbaselast]
      exact hposStar
    have hparts : strippedParts base =
        (intDecString p.rank :: splitWsRuns p.name) ++ [p.position] := by
      rw [strippedParts_eq, processedOf, hstar, if_neg (by simp), htrimbase, hsplitbase]
    refine ⟨?_, ?_, ?_, ?_, ?_, ?_⟩
    · rw [hline, parseOneLine_of_parts hb hparts htoksne hjoin hRparse hstar, ← hhl]
    · rw [hline, htrimbase]
    · rw [hline]
      exact hbasene
    · rw [hline]
      exact hbasehead
    · rw [hline]
      exact hbaselast_ws
    · rw [hline]
      exact hbasenl
  | true =>
    have hline : renderPlayer p = base ++ " *" := by
      rw [renderPlayer, hhl, if_pos rfl]
    have hdata : (base ++ " *").data = base.data ++ [' ', '*'] := by
      rw [String.data_append]
    have hassoc : base.data ++ [' ', '*'] = (base.data ++ [' ']) ++ ['*'] := by
      simp
    have hlast : (base ++ " *").data.getLast? = some '*' := by
      rw [hdata, hassoc, List.getLast?_concat]
    have hhead : ∀ x, (base ++ " *").data.head? = some x → isWs x = false := by
      intro x hx
      rw [hdata, List.head?_append_of_ne_nil _ hbasene] at hx
      exact hbasehead x hx
    have htrimline : jsTrim (base ++ " *") = base ++ " *" := by
      apply String.ext
      apply trimChars_eq_self hhead
      intro x hx
      rw [hlast, Option.some.injEq] at hx
      subst hx
      decide
    have hb : jsTrim (base ++ " *") ≠ "" := by
      rw [htrimline]
      intro he
      rw [str_empty_iff, hdata] at he
      simp at he
    have hstar : endsStar (jsTrim (base ++ " *")) = true := by
      rw [htrimline, endsStar_true_iff]
      exact hlast
    have hdrop : (base ++ " *").data.dropLast = base.data ++ [' '] := by
      rw [hdata, hassoc, List.dropLast_concat]
    have hprocessed : jsTrim ⟨(jsTrim (base ++ " *")).data.dropLast⟩ = base := by
      rw [htrimline]
      apply String.ext
      show trimChars ((base ++ " *").data.dropLast) = base.data
      rw [hdrop, trimChars_concat_ws (by decide), trimChars_eq_self hbasehead hbaselast_ws]
    have hparts : strippedParts (base ++ " *") =
        (intDecString p.rank :: splitWsRuns p.name) ++ [p.position] := by
      rw [strippedParts_eq, processedOf, hstar, if_pos rfl, hprocessed, hsplitbase]
    refine ⟨?_, ?_, ?_, ?_, ?_, ?_⟩
    · rw [hline, parseOneLine_of_parts hb hparts htoksne hjoin hRparse hstar, ← hhl]
    · rw [hline, htrimline]
    · rw [hline]
      intro he
      rw [hdata] at he
      simp at he
    · rw [hline]
      exact hhead
    · rw [hline]
      intro x hx
      rw [hlast, Option.some.injEq] at hx
      subst hx
      decide
    · rw [hline]
      intro c hc
      rw [hdata, List.mem_append] at hc
      rcases hc with hc | hc
      · exact hbasenl c hc
      · rw [List.mem_cons, List.mem_singleton] at hc
        rcases hc with rfl | rfl
        · decide
        · decide

theorem parseLines_renderPlayers : ∀ (ps : List Player) (acc : List Player),
    (∀ p ∈ ps, playerWellFormedStrong p = true) →
    parseLines (ps.map renderPlayer) acc = ⟨acc ++ ps, none⟩ := by
  intro ps
  induction ps with
  | nil => intro acc _; simp [parseLines]
  | cons p ps ih =>
    intro acc h
    rw [List.map_cons]
    simp only [parseLines, (renderPlayer_facts (h p (List.mem_cons_self p ps))).1]
    rw [ih (acc ++ [p]) (fun q hq => h q (List.mem_cons_of_mem p hq))]
    simp

/-- **C9 counterexample**: the player `⟨1, "Tom", "QB*", false⟩` satisfies the
claim's well-formedness (positive rank, well-formed name, single-token
position), but rendering and re-parsing yields position `QB` and highlight
`true` — the trailing `*` of the position is read as a highlight marker. -/
theorem c9_round_trip_counterexample :
    playerWellFormed ⟨1, "Tom", "QB*", false⟩ = true ∧
    parsePlayerText (renderPlayers [⟨1, "Tom", "QB*", false⟩]) =
      ⟨[⟨1, "Tom", "QB", true⟩], none⟩ ∧
    (parsePlayerText (renderPlayers [⟨1, "Tom", "QB*", false⟩])).players ≠
      [⟨1, "Tom", "QB*", false⟩] :=
  ⟨by decide, by decide, by decide⟩

/-- **C9 amended**: for every player list whose fields are well-formed in the
claim's sense and whose positions additionally do not end in `*`, rendering
each player as `<rank> <name> <position>` (with ` *` appended when
highlighted) and parsing the resulting text recovers exactly the same
players — ranks, names, positions and highlight flags in order — with no
error. -/
theorem c9_round_trip (ps : List Player)
    (h : ∀ p ∈ ps, playerWellFormedStrong p = true) :
    parsePlayerText (renderPlayers ps) = ⟨ps, none⟩ := by
  cases hps : ps with
  | nil => decide
  | cons q qs =>
    subst hps
    have hfacts := fun p hp => renderPlayer_facts (h p hp)
    have hlinesne : ∀ l ∈ (q :: qs).map renderPlayer, l.data ≠ [] := by
      intro l hl
      rw [List.mem_map] at hl
      obtain ⟨p, hp, rfl⟩ := hl
      exact (hfacts p hp).2.2.1
    have hnonl : ∀ cs ∈ ((q :: qs).map renderPlayer).map String.data, '\n' ∉ cs := by
      intro cs hcs
      rw [List.mem_map] at hcs
      obtain ⟨l, hl, rfl⟩ := hcs
      rw [List.mem_map] at hl
      obtain ⟨p, hp, rfl⟩ := hl
      intro hmem
      exact ((hfacts p hp).2.2.2.2.2 '\n' hmem) rfl
    have htextdata : (renderPlayers (q :: qs)).data =
        List.intercalate ['\n'] (((q :: qs).map renderPlayer).map String.data) := rfl
    have hqne : (renderPlayer q).data ≠ [] :=
      (hfacts q (List.mem_cons_self q qs)).2.2.1
    have hLne : ((q :: qs).map renderPlayer).map String.data ≠ [] := by simp
    have htrim : jsTrim (renderPlayers (q :: qs)) = renderPlayers (q :: qs) := by
      apply String.ext
      show trimChars (renderPlayers (q :: qs)).data = (renderPlayers (q :: qs)).data
      apply trimChars_eq_self
      · intro x hx
        rw [htextdata] at hx
        rw [show ((q :: qs).map renderPlayer).map String.data =
          (renderPlayer q).data :: (qs.map renderPlayer).map String.data from by
            simp, intercalate_head? '\n' _ hqne] at hx
        exact (hfacts q (List.mem_cons_self q qs)).2.2.2.1 x hx
      · intro x hx
        rw [htextdata] at hx
        set L := ((q :: qs).map renderPlayer).map String.data with hLdef
        have hprop : ∀ cs ∈ L, cs ≠ [] ∧
            ∀ y, cs.getLast? = some y → isWs y = false := by
          intro cs hcs
          rw [hLdef, List.mem_map] at hcs
          obtain ⟨l, hl, rfl⟩ := hcs
          rw [List.mem_map] at hl
          obtain ⟨p, hp, rfl⟩ := hl
          exact ⟨(hfacts p hp).2.2.1, (hfacts p hp).2.2.2.2.1⟩
        have hLne2 : L ≠ [] := by simp [hLdef]
        have hsplitL : L = L.dropLast ++ [L.getLast hLne2] :=
          (List.dropLast_append_getLast hLne2).symm
        obtain ⟨hlastne, hlastws⟩ := hprop _ (List.getLast_mem hLne2)
        rw [hsplitL, intercalate_getLast? (by simp) _ _ hlastne] at hx
        exact hlastws x hx
    have hsplit : jsSplitNl (renderPlayers (q :: qs)) = (q :: qs).map renderPlayer := by
      rw [jsSplitNl, htextdata, splitOnChar_intercalate (by simp) hnonl, List.map_map]
      have he : (String.mk ∘ String.data) = id := funext (fun s => strMk_data s)
      rw [he, List.map_id]
    show parseLines (jsSplitNl (jsTrim (renderPlayers (q :: qs)))) [] = _
    rw [htrim, hsplit, parseLines_renderPlayers (q :: qs) [] h]
    rfl

theorem c9_round_trip_witness :
    (∀ p ∈ samplePlayers, playerWellFormedStrong p = true) ∧
      parsePlayerText (renderPlayers samplePlayers) = ⟨samplePlayers, none⟩ :=
  ⟨by decide, c9_round_trip samplePlayers (by decide)⟩

theorem findIdx?_some_spec (p : String → Bool) :
    ∀ (l : List String) (i : Nat), l.findIdx? p = some i →
      i < l.length ∧ p (l.getD i "") = true ∧ ∀ j < i, p (l.getD j "") = false := by
  intro l
  induction l with
  | nil => intro i h; simp [List.findIdx?] at h
  | cons a l ih =>
    intro i h
    rw [List.findIdx?_cons] at h
    by_cases hpa : p a = true
    · rw [if_pos hpa] at h
      obtain rfl : (0 : Nat) = i := Option.some.inj h
      exact ⟨Nat.succ_pos _, hpa, fun j hj => absurd hj (Nat.not_lt_zero j)⟩
    · rw [if_neg hpa, List.findIdx?_succ] at h
      cases hfl : l.findIdx? p with
      | none => rw [hfl] at h; simp at h
      | some k =>
        rw [hfl] at h
        obtain rfl : k + 1 = i := Option.some.inj h
        obtain ⟨h1, h2, h3⟩ := ih k hfl
        refine ⟨Nat.succ_lt_succ h1, h2, ?_⟩
        intro j hj
        cases j with
        | zero => simpa using hpa
        | succ m => exact h3 m (Nat.lt_of_succ_lt_succ hj)

theorem toggleLine_no_newline {line : String} (h : ∀ c ∈ line.data, c ≠ '\n') :
    ∀ c ∈ (toggleLine line).data, c ≠ '\n' := by
  intro c hc
  rw [toggleLine] at hc
  by_cases hstar : (jsTrim line).data.getLast? = some '*'
  · rw [if_pos hstar] at hc
    have h1 : c ∈ (jsTrim line).data.dropLast := mem_trimChars hc
    have h2 : c ∈ (jsTrim line).data := (List.dropLast_sublist _).mem h1
    exact h c (mem_trimChars h2)
  · rw [if_neg hstar] at hc
    rw [String.data_append] at hc
    rcases List.mem_append.mp hc with h1 | h2
    · exact h c (mem_trimChars h1)
    · simp only [show (" *" : String).data = [' ', '*'] from rfl,
        List.mem_cons, List.mem_singleton] at h2
      rcases h2 with rfl | rfl | h3
      · decide
      · decide
      · exact absurd h3 (List.not_mem_nil c)

theorem jsSplitNl_no_newline (s : String) :
    ∀ l ∈ jsSplitNl s, ∀ c ∈ l.data, c ≠ '\n' := by
  intro l hl c hc heq
  rw [jsSplitNl, List.mem_map] at hl
  obtain ⟨cs, hcs, rfl⟩ := hl
  subst heq
  exact not_mem_of_mem_splitOnChar hcs hc

theorem jsSplitNl_ne_nil (s : String) : jsSplitNl s ≠ [] := by
  intro h
  rw [jsSplitNl, List.map_eq_nil_iff] at h
  exact splitOnChar_ne_nil '\n' s.data h

theorem jsSplitNl_joinNl {ls : List String} (hne : ls ≠ [])
    (h : ∀ l ∈ ls, ∀ c ∈ l.data, c ≠ '\n') :
    jsSplitNl (joinNl ls) = ls := by
  have hns : ∀ cs ∈ ls.map String.data, '\n' ∉ cs := by
    intro cs hcs
    rw [List.mem_map] at hcs
    obtain ⟨l, hl, rfl⟩ := hcs
    intro hmem
    exact h l hl '\n' hmem rfl
  have hmapne : ls.map String.data ≠ [] := by simpa using hne
  rw [jsSplitNl, joinNl]
  rw [show (String.mk (List.intercalate ['\n'] (ls.map String.data))).data =
    List.intercalate ['\n'] (ls.map String.data) from rfl]
  rw [splitOnChar_intercalate hmapne hns, List.map_map]
  have he : (String.mk ∘ String.data) = id := funext (fun s => strMk_data s)
  rw [he, List.map_id]

/-- **C10**: `handleTogglePlayerHighlight` is the identity on the raw text when
no line's leading integer (after trimming and marker stripping) equals the
given rank; when the first matching line has index `i`, the resulting text
splits into the original lines with only line `i` replaced by its toggled
form, and every line with index `j ≠ i` is unchanged character for
character. -/
theorem c10_toggle_highlight_frame (rawText : String) (r : Int) :
    ((∀ l ∈ jsSplitNl rawText, lineMatchesRank r l = false) →
      handleTogglePlayerHighlight rawText r = rawText) ∧
    (∀ i, (jsSplitNl rawText).findIdx? (fun l => lineMatchesRank r l) = some i →
      i < (jsSplitNl rawText).length ∧
      lineMatchesRank r ((jsSplitNl rawText).getD i "") = true ∧
      (∀ j < i, lineMatchesRank r ((jsSplitNl rawText).getD j "") = false) ∧
      jsSplitNl (handleTogglePlayerHighlight rawText r) =
        (jsSplitNl rawText).set i (toggleLine ((jsSplitNl rawText).getD i "")) ∧
      (∀ j, j ≠ i →
        (jsSplitNl (handleTogglePlayerHighlight rawText r)).getD j "" =
          (jsSplitNl rawText).getD j "")) := by
  constructor
  · intro hnone
    have hfind : (jsSplitNl rawText).findIdx? (fun l => lineMatchesRank r l) = none :=
      List.findIdx?_eq_none_iff.mpr hnone
    rw [handleTogglePlayerHighlight]
    rw [hfind]
  · intro i hfind
    obtain ⟨hlen, hmatch, hfirst⟩ := findIdx?_some_spec _ _ i hfind
    have hres : handleTogglePlayerHighlight rawText r =
        joinNl ((jsSplitNl rawText).set i
          (toggleLine ((jsSplitNl rawText).getD i ""))) := by
      rw [handleTogglePlayerHighlight]
      rw [hfind]
    have hgetmem : (jsSplitNl rawText).getD i "" ∈ jsSplitNl rawText :=
      getD_mem "" hlen
    have hnonl2 : ∀ l ∈ (jsSplitNl rawText).set i
        (toggleLine ((jsSplitNl rawText).getD i "")), ∀ c ∈ l.data, c ≠ '\n' := by
      intro l hl
      rcases List.mem_or_eq_of_mem_set hl with h1 | rfl
      · exact jsSplitNl_no_newline rawText l h1
      · exact toggleLine_no_newline (jsSplitNl_no_newline rawText _ hgetmem)
    have hsetne : (jsSplitNl rawText).set i
        (toggleLine ((jsSplitNl rawText).getD i "")) ≠ [] := by
      intro h
      have h2 := congrArg List.length h
      rw [List.length_set] at h2
      exact jsSplitNl_ne_nil rawText (List.length_eq_zero.mp h2)
    have hsplit : jsSplitNl (handleTogglePlayerHighlight rawText r) =
        (jsSplitNl rawText).set i (toggleLine ((jsSplitNl rawText).getD i "")) := by
      rw [hres, jsSplitNl_joinNl hsetne hnonl2]
    refine ⟨hlen, hmatch, hfirst, hsplit, ?_⟩
    intro j hj
    rw [hsplit]
    exact getD_set_ne _ _ _ (Ne.symm hj)

theorem c10_toggle_highlight_frame_witness :
    handleTogglePlayerHighlight "1 Tom Brady QB\n2 AJ Green WR" 7 =
      "1 Tom Brady QB\n2 AJ Green WR" ∧
    jsSplitNl (handleTogglePlayerHighlight "1 Tom Brady QB\n2 AJ Green WR" 2) =
      (jsSplitNl "1 Tom Brady QB\n2 AJ Green WR").set 1
        (toggleLine ((jsSplitNl "1 Tom Brady QB\n2 AJ Green WR").getD 1 "")) :=
  ⟨(c10_toggle_highlight_frame "1 Tom Brady QB\n2 AJ Green WR" 7).1 (by decide),
   (((c10_toggle_highlight_frame "1 Tom Brady QB\n2 AJ Green WR" 2).2 1
      (by decide)).2.2.2).1⟩

theorem parseOneLine_ok_inv {line : String} {p : Player}
    (h : parseOneLine line = .ok p) :
    jsTrim line ≠ "" ∧ ¬(strippedParts line).length < 3 ∧
    jsParseInt ((strippedParts line).headD "") = some p.rank ∧
    p.name = joinSpace ((strippedParts line).drop 1).dropLast ∧
    p.position = (strippedParts line).getLastD "" ∧
    p.isHighlighted = endsStar (jsTrim line) := by
  have hb : jsTrim line ≠ "" := by
    intro hbe
    rw [(parseOneLine_blank_iff line).mpr hbe] at h
    cases h
  by_cases h2 : (strippedParts line).length < 3
  · rw [parseOneLine_eq_bad_malformed hb h2] at h; cases h
  cases h3 : jsParseInt ((strippedParts line).headD "") with
  | none => rw [parseOneLine_eq_bad_rank hb h2 h3] at h; cases h
  | some rank =>
    rw [parseOneLine_eq_ok hb h2 h3] at h
    have h4 := LineResult.ok.inj h
    subst h4
    exact ⟨hb, h2, rfl, rfl, rfl, rfl⟩

theorem toggleLine_starred {line : String}
    (hstar : (jsTrim line).data.getLast? = some '*') :
    toggleLine line = jsTrim ⟨(jsTrim line).data.dropLast⟩ := by
  rw [toggleLine, if_pos hstar]

theorem toggleLine_unstarred {line : String}
    (hstar : ¬(jsTrim line).data.getLast? = some '*') :
    toggleLine line = jsTrim line ++ " *" := by
  rw [toggleLine, if_neg hstar]

/-- Toggling the marker on a line that parses to a player yields a line that
parses to the same player with the highlight flag flipped, provided the
stripped form of a starred line does not itself still end in `*`. -/
theorem parseOneLine_toggleLine {line : String} {p : Player}
    (hok : parseOneLine line = .ok p)
    (hsafe : (jsTrim line).data.getLast? = some '*' →
      (jsTrim ⟨(jsTrim line).data.dropLast⟩).data.getLast? ≠ some '*') :
    parseOneLine (toggleLine line) =
      .ok ⟨p.rank, p.name, p.position, !p.isHighlighted⟩ := by
  obtain ⟨hb, h2, h3, hname, hpos, hstarp⟩ := parseOneLine_ok_inv hok
  by_cases hstar : (jsTrim line).data.getLast? = some '*'
  · have hsafe2 := hsafe hstar
    have htl : toggleLine line = jsTrim ⟨(jsTrim line).data.dropLast⟩ :=
      toggleLine_starred hstar
    have hsp : strippedParts line = splitWsRuns (toggleLine line) := by
      rw [strippedParts_eq, processedOf, if_pos (endsStar_true_iff.mpr hstar), htl]
    have htt : jsTrim (toggleLine line) = toggleLine line := by
      rw [htl]; exact jsTrim_idem _
    have htne : jsTrim (toggleLine line) ≠ "" := by
      rw [htt]
      intro he
      apply h2
      rw [hsp, he]
      decide
    have hcond : ¬(endsStar (toggleLine line) = true) := by
      rw [htl]
      intro hc
      exact hsafe2 (endsStar_true_iff.mp hc)
    have hproc : processedOf (toggleLine line) = toggleLine line := by
      rw [processedOf, htt, if_neg hcond]
    have hsp2 : strippedParts (toggleLine line) = strippedParts line := by
      rw [strippedParts_eq, hproc, hsp]
    have hns : endsStar (jsTrim (toggleLine line)) = false := by
      rw [htt, htl]
      exact endsStar_false_iff.mpr hsafe2
    have h2n : ¬(strippedParts (toggleLine line)).length < 3 := by
      rw [hsp2]; exact h2
    have h3n : jsParseInt ((strippedParts (toggleLine line)).headD "") = some p.rank := by
      rw [hsp2]; exact h3
    rw [parseOneLine_eq_ok htne h2n h3n, hsp2, hns, ← hname, ← hpos, hstarp,
      endsStar_true_iff.mpr hstar]
    rfl
  · have htl : toggleLine line = jsTrim line ++ " *" := toggleLine_unstarred hstar
    have hES : endsStar (jsTrim line) = false := endsStar_false_iff.mpr hstar
    have hdata : (toggleLine line).data = (jsTrim line).data ++ [' ', '*'] := by
      rw [htl, String.data_append]
    have htne0 : (jsTrim line).data ≠ [] := fun he => hb (str_empty_iff.mpr he)
    have hlaststar : (toggleLine line).data.getLast? = some '*' := by
      rw [hdata, show (jsTrim line).data ++ [' ', '*'] =
        ((jsTrim line).data ++ [' ']) ++ ['*'] from
          (List.append_assoc (jsTrim line).data [' '] ['*']).symm]
      exact List.getLast?_concat _
    have htt : jsTrim (toggleLine line) = toggleLine line := by
      apply String.ext
      show trimChars (toggleLine line).data = (toggleLine line).data
      apply trimChars_eq_self
      · intro x hx
        rw [hdata] at hx
        cases hA : (jsTrim line).data with
        | nil => exact absurd hA htne0
        | cons a as =>
          rw [hA, List.cons_append] at hx
          obtain rfl : a = x := by simpa using hx
          apply @trimChars_head_not_ws line.data a
          rw [show trimChars line.data = (jsTrim line).data from rfl, hA]
          rfl
      · intro x hx
        rw [hlaststar] at hx
        obtain rfl : '*' = x := by simpa using hx
        decide
    have hcond : endsStar (jsTrim (toggleLine line)) = true := by
      rw [htt]
      exact endsStar_true_iff.mpr hlaststar
    have hdrop : (jsTrim (toggleLine line)).data.dropLast = (jsTrim line).data ++ [' '] := by
      rw [htt, hdata, show (jsTrim line).data ++ [' ', '*'] =
        ((jsTrim line).data ++ [' ']) ++ ['*'] from
          (List.append_assoc (jsTrim line).data [' '] ['*']).symm]
      exact List.dropLast_concat ..
    have hproc : processedOf (toggleLine line) = jsTrim line := by
      rw [processedOf, if_pos hcond, hdrop]
      apply String.ext
      show trimChars ((jsTrim line).data ++ [' ']) = (jsTrim line).data
      rw [trimChars_concat_ws (by decide)]
      exact trimChars_idem line.data
    have hsp : strippedParts line = splitWsRuns (jsTrim line) := by
      rw [strippedParts_eq, processedOf, if_neg]
      rw [hES]
      intro hc
      cases hc
    have hsp2 : strippedParts (toggleLine line) = strippedParts line := by
      rw [strippedParts_eq, hproc, hsp]
    have htne : jsTrim (toggleLine line) ≠ "" := by
      rw [htt]
      intro he
      have := congrArg String.data he
      rw [hdata] at this
      simp at this
    have h2n : ¬(strippedParts (toggleLine line)).length < 3 := by
      rw [hsp2]; exact h2
    have h3n : jsParseInt ((strippedParts (toggleLine line)).headD "") = some p.rank := by
      rw [hsp2]; exact h3
    rw [parseOneLine_eq_ok htne h2n h3n, hsp2, hcond, ← hname, ← hpos, hstarp, hES]
    rfl

theorem parseLines_set_map {β : Type} (g : Player → β) {x : String} {p p2 : Player}
    (hnew : parseOneLine x = .ok p2) (hg : g p2 = g p) :
    ∀ (lines : List String) (i : Nat) (acc : List Player),
    parseOneLine (lines.getD i "") = .ok p →
    (parseLines lines acc).error = none →
    (parseLines (lines.set i x) acc).error = none ∧
    (parseLines (lines.set i x) acc).players.map g =
      (parseLines lines acc).players.map g := by
  intro lines
  induction lines with
  | nil =>
    intro i acc hok _
    rw [show (List.getD ([] : List String) i "") = "" from rfl, parseOneLine_empty] at hok
    cases hok
  | cons a rest ih =>
    intro i acc hok herr
    cases i with
    | zero =>
      rw [List.getD_cons_zero] at hok
      rw [List.set_cons_zero]
      simp only [parseLines, hok, hnew] at herr ⊢
      have herr2 : (parseLines rest []).error = none := by
        rw [parseLines_acc_eq] at herr
        exact herr
      constructor
      · rw [parseLines_acc_eq]
        exact herr2
      · rw [parseLines_acc_eq rest (acc ++ [p2]), parseLines_acc_eq rest (acc ++ [p])]
        simp [herr2, hg]
    | succ j =>
      rw [List.getD_cons_succ] at hok
      rw [List.set_cons_succ]
      cases ha : parseOneLine a with
      | blank =>
        simp only [parseLines, ha] at herr ⊢
        exact ih j acc hok herr
      | bad m =>
        simp only [parseLines, ha] at herr
        simp at herr
      | ok q =>
        simp only [parseLines, ha] at herr ⊢
        exact ih j (acc ++ [q]) hok herr

theorem identifierOfText_eq_split (text : String) :
    identifierOfText text =
      playerListIdentifier (parseLines (jsSplitNl text) []).players := by
  rw [identifierOfText, (parsePlayerText_sameShape_split text).1]

/-- **C3 counterexample**: the text `"1 Tom **"` parses successfully to the
single player rank 1, name `Tom`, position `*`, highlighted (the marker
strip removes only one trailing `*`). Toggling the highlight of rank 1
produces `"1 Tom *"`, which fails to parse (after stripping its marker only
two tokens remain), so the identity string changes (to the empty identifier
of the empty list) and the picked set is cleared — the highlight-only edit
does trigger the reset, contradicting the claim. -/
theorem c3_identity_stability_counterexample :
    (parsePlayerText "1 Tom **").error = none ∧
    (parsePlayerText "1 Tom **").players = [⟨1, "Tom", "*", true⟩] ∧
    lineMatchesRank 1 "1 Tom **" = true ∧
    handleTogglePlayerHighlight "1 Tom **" 1 = "1 Tom *" ∧
    identifierOfText (handleTogglePlayerHighlight "1 Tom **" 1) ≠
      identifierOfText "1 Tom **" ∧
    (applyRawTextChange ⟨"1 Tom **", 2, {1}⟩
        (handleTogglePlayerHighlight "1 Tom **" 1)).pickedPlayers = ∅ :=
  ⟨by decide, by decide, by decide, by decide, by decide, by decide⟩

/-- **C3 amended**: for every state whose raw text parses successfully and
every rank, if toggling that rank's highlight is *safe* — the matched line,
once its trailing `*` is stripped, does not still end in `*` — then the
toggle-highlight text edit preserves the list-identity string, and applying
the edited text as a raw-text change leaves the picked set untouched. The
safety proviso is needed: see the counterexample `"1 Tom **"`. -/
theorem c3_identity_stability (s : AppState) (r : Int)
    (hok : errorOf s = none) (hsafe : safeToggle s.rawText r) :
    identifierOfText (handleTogglePlayerHighlight s.rawText r) =
      identifierOfText s.rawText ∧
    (applyRawTextChange s (handleTogglePlayerHighlight s.rawText r)).pickedPlayers =
      s.pickedPlayers := by
  have hid : identifierOfText (handleTogglePlayerHighlight s.rawText r) =
      identifierOfText s.rawText := by
    cases hfind : (jsSplitNl s.rawText).findIdx? (fun l => lineMatchesRank r l) with
    | none =>
      rw [handleTogglePlayerHighlight]
      rw [hfind]
    | some i =>
      obtain ⟨hlen, hmatch, -⟩ := findIdx?_some_spec _ _ i hfind
      have hnb : jsTrim ((jsSplitNl s.rawText).getD i "") ≠ "" := by
        intro he
        rw [lineMatchesRank, he] at hmatch
        exact Option.noConfusion (of_decide_eq_true hmatch)
      have herr0 : (parseLines (jsSplitNl s.rawText) []).error = none := by
        have hshape := (parsePlayerText_sameShape_split s.rawText).2
        rw [errorOf] at hok
        rw [hok] at hshape
        cases he : (parseLines (jsSplitNl s.rawText) []).error with
        | none => rfl
        | some m => rw [he] at hshape; simp at hshape
      have hnobad := parseLines_no_bad_of_error_none (jsSplitNl s.rawText) [] herr0
      have hmem : (jsSplitNl s.rawText).getD i "" ∈ jsSplitNl s.rawText :=
        getD_mem "" hlen
      obtain ⟨p, hokline⟩ :
          ∃ p, parseOneLine ((jsSplitNl s.rawText).getD i "") = .ok p := by
        cases hres : parseOneLine ((jsSplitNl s.rawText).getD i "") with
        | blank => exact absurd ((parseOneLine_blank_iff _).mp hres) hnb
        | bad m => exact absurd hres (hnobad _ hmem m)
        | ok p => exact ⟨p, rfl⟩
      have hnewok := parseOneLine_toggleLine hokline (hsafe i hfind)
      have hres : handleTogglePlayerHighlight s.rawText r =
          joinNl ((jsSplitNl s.rawText).set i
            (toggleLine ((jsSplitNl s.rawText).getD i ""))) := by
        rw [handleTogglePlayerHighlight]
        rw [hfind]
      have hnonl2 : ∀ l ∈ (jsSplitNl s.rawText).set i
          (toggleLine ((jsSplitNl s.rawText).getD i "")), ∀ c ∈ l.data, c ≠ '\n' := by
        intro l hl
        rcases List.mem_or_eq_of_mem_set hl with h1 | rfl
        · exact jsSplitNl_no_newline _ l h1
        · exact toggleLine_no_newline (jsSplitNl_no_newline _ _ hmem)
      have hsetne : (jsSplitNl s.rawText).set i
          (toggleLine ((jsSplitNl s.rawText).getD i "")) ≠ [] := by
        intro h
        have h2 := congrArg List.length h
        rw [List.length_set] at h2
        exact jsSplitNl_ne_nil s.rawText (List.length_eq_zero.mp h2)
      have hsplit : jsSplitNl (handleTogglePlayerHighlight s.rawText r) =
          (jsSplitNl s.rawText).set i
            (toggleLine ((jsSplitNl s.rawText).getD i "")) := by
        rw [hres, jsSplitNl_joinNl hsetne hnonl2]
      have hset := @parseLines_set_map String
        (fun q => intDecString q.rank ++ "|" ++ q.name)
        (toggleLine ((jsSplitNl s.rawText).getD i "")) p
        ⟨p.rank, p.name, p.position, !p.isHighlighted⟩ hnewok rfl
        (jsSplitNl s.rawText) i [] hokline herr0
      rw [identifierOfText_eq_split (handleTogglePlayerHighlight s.rawText r),
        identifierOfText_eq_split s.rawText, hsplit, playerListIdentifier,
        playerListIdentifier]
      exact congrArg joinComma hset.2
  refine ⟨hid, ?_⟩
  simp only [applyRawTextChange]
  rw [if_pos hid]

theorem c3_identity_stability_witness :
    errorOf ⟨"1 Tom Brady QB\n2 AJ Green WR", 2, {1}⟩ = none ∧
    (identifierOfText
        (handleTogglePlayerHighlight "1 Tom Brady QB\n2 AJ Green WR" 2) =
      identifierOfText "1 Tom Brady QB\n2 AJ Green WR" ∧
    (applyRawTextChange ⟨"1 Tom Brady QB\n2 AJ Green WR", 2, {1}⟩
        (handleTogglePlayerHighlight "1 Tom Brady QB\n2 AJ Green WR" 2)).pickedPlayers =
      ({1} : Finset Int)) := by
  refine ⟨by decide, ?_⟩
  exact c3_identity_stability ⟨"1 Tom Brady QB\n2 AJ Green WR", 2, {1}⟩ 2 (by decide)
    (fun i hi => by
      have h1 : (jsSplitNl "1 Tom Brady QB\n2 AJ Green WR").findIdx?
          (fun l => lineMatchesRank 2 l) = some 1 := by decide
      rw [h1] at hi
      obtain rfl : (1 : Nat) = i := Option.some.inj hi
      exact fun hstar => absurd hstar (by decide))
